import Mathlib

/-
Verification of the bloom-rs library: a shallow embedding of its packed
value store (src/valuevec.rs), double-hash probe generator
(src/hashing.rs), Bloom filter (src/bloom.rs) and counting Bloom filter
(src/counting.rs), with theorems checking the specification claims
against the code.

Modelling conventions:
* Rust u32 and u64 values are Nat; wrapping arithmetic carries an
  explicit percent 2 ^ 64.  The u32 bit manipulations in ValueVec never
  overflow for the widths the structure supports (bits_per_val at most
  31), which the well-formedness predicate records.
* A Rust panic is modelled as none; every operation with a reachable
  panic returns Option.
* The backing bit_vec::BitVec of a ValueVec is modelled by its u32
  storage block list (List Nat) exactly as the ValueVec code addresses
  it through storage()/storage_mut(): bit offset p lives in block
  p / 32 at block bit 31 - p % 32.  Block slice indexing, in bounds in
  every reachable call, is modelled with List.getD and List.set.
* Hash builders (std BuildHasher values) are modelled as deterministic
  functions into Nat, applied once per HashIter construction just as
  build_hasher()/hash()/finish() is.
-/

/-- `ValueVec` from src/valuevec.rs: a bit vector holding fixed sized
unsigned integer values.  `blocks` is the u32 storage of the backing
`BitVec`. -/
structure ValueVec where
  bits_per_val : Nat
  mask : Nat
  blocks : List Nat

/-- `ValueVec::new`: `mask = 2^bits_per_val - 1` and a zero-initialised
`BitVec` of `bits_per_val * count` bits, whose u32 storage therefore has
`⌈bits_per_val * count / 32⌉` zero blocks. -/
def ValueVec.new (bits_per_val count : Nat) : ValueVec :=
  { bits_per_val := bits_per_val
    mask := 2 ^ bits_per_val - 1
    blocks := List.replicate ((bits_per_val * count + 31) / 32) 0 }

/-- `ValueVec::max_value`. -/
def ValueVec.max_value (vv : ValueVec) : Nat :=
  vv.mask

/-- `ValueVec::clear`: every bit reset to zero, dimensions unchanged. -/
def ValueVec.clear (vv : ValueVec) : ValueVec :=
  { vv with blocks := List.replicate vv.blocks.length 0 }

/-- `ValueVec::set_bits`: write the low `num_bits` bits of `val` into
block `idx / 32` at shift `32 - idx % 32 - num_bits`, clearing exactly
the target range with the computed mask and OR-ing in the new bits. -/
def ValueVec.set_bits (vv : ValueVec) (idx val num_bits : Nat) : ValueVec :=
  let blockidx := idx / 32
  let shift := 32 - idx % 32 - num_bits
  let mask := (if num_bits = vv.bits_per_val then vv.mask else 2 ^ num_bits - 1) <<< shift
  let block := vv.blocks.getD blockidx 0
  let zeroed := (block ^^^ mask) &&& block
  { vv with blocks := vv.blocks.set blockidx (zeroed ||| val <<< shift) }

/-- `ValueVec::get_bits`: read `num_bits` bits from block `idx / 32` at
shift `32 - idx % 32 - num_bits`. -/
def ValueVec.get_bits (vv : ValueVec) (idx num_bits : Nat) : Nat :=
  let shift := 32 - idx % 32 - num_bits
  let mask := (if num_bits = vv.bits_per_val then vv.mask else 2 ^ num_bits - 1) <<< shift
  (vv.blocks.getD (idx / 32) 0 &&& mask) >>> shift

/-- `ValueVec::set`: Rust panics when `val > self.mask` (modelled as
`none`); otherwise the write is split at a 32-bit word boundary exactly
as in the source. -/
def ValueVec.set (vv : ValueVec) (i val : Nat) : Option ValueVec :=
  if val > vv.mask then none
  else
    let idx := i * vv.bits_per_val
    let rem := 32 - idx % 32
    if rem < vv.bits_per_val then
      let left := vv.bits_per_val - rem
      let lowerval := val >>> left
      let vv1 := vv.set_bits idx lowerval rem
      let upval := val &&& (2 ^ left - 1)
      some (vv1.set_bits (idx + rem) upval left)
    else
      some (vv.set_bits idx val vv.bits_per_val)

/-- `ValueVec::get`, with the same word-boundary split as `set`. -/
def ValueVec.get (vv : ValueVec) (i : Nat) : Nat :=
  let idx := i * vv.bits_per_val
  let rem := 32 - idx % 32
  if rem < vv.bits_per_val then
    let lower := vv.get_bits idx rem
    let left := vv.bits_per_val - rem
    let upper := vv.get_bits (idx + rem) left
    (lower <<< left) ||| upper
  else
    vv.get_bits idx vv.bits_per_val

/-- The bit stored at absolute bit offset `p` of the vector, as the
ValueVec code addresses its u32 storage: block `p / 32`, block bit
`31 - p % 32`. -/
def ValueVec.absBitAt (vv : ValueVec) (p : Nat) : Bool :=
  (vv.blocks.getD (p / 32) 0).testBit (31 - p % 32)

/-- Well-formedness of a `ValueVec` holding `count` slots, as
established by `ValueVec::new` for widths 1..31: the `mask` field is
`2^bits_per_val - 1` (the u32 `2u32.pow(bits_per_val) - 1`), the u32
storage covers all `bits_per_val * count` bits, and every storage block
is a u32 value. -/
def ValueVec.WF (vv : ValueVec) (count : Nat) : Prop :=
  1 ≤ vv.bits_per_val ∧ vv.bits_per_val ≤ 31 ∧
  vv.mask = 2 ^ vv.bits_per_val - 1 ∧
  vv.bits_per_val * count ≤ 32 * vv.blocks.length ∧
  ∀ b ∈ vv.blocks, b < 2 ^ 32

instance (vv : ValueVec) (count : Nat) : Decidable (vv.WF count) := by
  unfold ValueVec.WF; infer_instance

/-- `HashIter` from src/hashing.rs. -/
structure HashIter where
  h1 : Nat
  h2 : Nat
  i : Nat
  count : Nat

/-- `HashIter::next` (`Iterator` impl): index 0 yields `h1`, index 1
yields `h2`, index `i ≥ 2` yields `h1.wrapping_add(i).wrapping_mul(h2)`,
i.e. `((h1 + i) % 2^64) * h2 % 2^64`; `none` once `i == count`. -/
def HashIter.next (it : HashIter) : Option (Nat × HashIter) :=
  if it.i = it.count then none
  else
    let r :=
      match it.i with
      | 0 => it.h1
      | 1 => it.h2
      | _ => ((it.h1 + it.i) % 2 ^ 64) * it.h2 % 2 ^ 64
    some (r, { it with i := it.i + 1 })

/-- `HashIter::from` (renamed: `from` is a Lean keyword): both base
hashes are computed exactly once, before the iterator exists. -/
def HashIter.fromItem {α : Type} (item : α) (count : Nat)
    (build_hasher_one build_hasher_two : α → Nat) : HashIter :=
  { h1 := build_hasher_one item
    h2 := build_hasher_two item
    i := 0
    count := count }

/-- Drive a `HashIter` by repeated `next` calls, collecting the yielded
values; `fuel` bounds the number of pulls, which suffices because the
iterator is finite. -/
def HashIter.emit : HashIter → Nat → List Nat
  | _, 0 => []
  | it, fuel + 1 =>
    match it.next with
    | none => []
    | some (v, it2) => v :: HashIter.emit it2 fuel

/-- The value the probe generator yields at index `i`: the same match
as in `HashIter::next`, exposed as a function of the index for the
statements below. -/
def probeVal (h1 h2 : Nat) (i : Nat) : Nat :=
  match i with
  | 0 => h1
  | 1 => h2
  | _ => ((h1 + i) % 2 ^ 64) * h2 % 2 ^ 64

/-- The finite probe sequence an operation consumes:
`HashIter::from(item, count, b1, b2)` driven to exhaustion. -/
def hashProbes {α : Type} (item : α) (count : Nat) (b1 b2 : α → Nat) : List Nat :=
  HashIter.emit (HashIter.fromItem item count b1 b2) count

/-- `BloomFilter` from src/bloom.rs, its `BitVec` modelled as the list
of its bits and its hash builders as functions. -/
structure BloomFilter (α : Type) where
  bits : List Bool
  num_hashes : Nat
  hash_builder_one : α → Nat
  hash_builder_two : α → Nat

/-- `BloomFilter::with_size` (and `with_size_and_hashers`): a
zero-initialised bit array of `num_bits` bits. -/
def BloomFilter.with_size {α : Type} (num_bits num_hashes : Nat)
    (b1 b2 : α → Nat) : BloomFilter α :=
  { bits := List.replicate num_bits false
    num_hashes := num_hashes
    hash_builder_one := b1
    hash_builder_two := b2 }

/-- `BloomFilter::num_bits`. -/
def BloomFilter.num_bits {α : Type} (bf : BloomFilter α) : Nat :=
  bf.bits.length

/-- The probe values `insert`/`contains` iterate over. -/
def BloomFilter.probesOf {α : Type} (bf : BloomFilter α) (item : α) : List Nat :=
  hashProbes item bf.num_hashes bf.hash_builder_one bf.hash_builder_two

/-- The loop body of `BloomFilter::insert`: for each probe `h`, reduce
by `bits.len()` (a Rust remainder-by-zero panic when the filter has no
bits, modelled as `none`), record whether the bit was already set, then
set it. -/
def bfInsertLoop : List Bool → Bool → List Nat → Option (List Bool × Bool)
  | bits, contained, [] => some (bits, contained)
  | bits, contained, h :: hs =>
    if bits.length = 0 then none
    else
      let idx := h % bits.length
      match bits[idx]? with
      | some b => bfInsertLoop (bits.set idx true) (contained && b) hs
      | none => none

/-- `BloomFilter::insert` (ASMS impl): returns `!contained`. -/
def BloomFilter.insert {α : Type} (bf : BloomFilter α) (item : α) :
    Option (BloomFilter α × Bool) :=
  match bfInsertLoop bf.bits true (bf.probesOf item) with
  | none => none
  | some (bits2, contained) => some ({ bf with bits := bits2 }, !contained)

/-- The loop body of `BloomFilter::contains`: returns `false` as soon as
a probed bit is unset. -/
def bfContainsLoop : List Bool → List Nat → Option Bool
  | _, [] => some true
  | bits, h :: hs =>
    if bits.length = 0 then none
    else
      let idx := h % bits.length
      match bits[idx]? with
      | some b => if !b then some false else bfContainsLoop bits hs
      | none => none

/-- `BloomFilter::contains` (ASMS impl). -/
def BloomFilter.contains {α : Type} (bf : BloomFilter α) (item : α) : Option Bool :=
  bfContainsLoop bf.bits (bf.probesOf item)

/-- `BloomFilter::clear`: `BitVec::clear` zeroes all bits, keeping the
length. -/
def BloomFilter.clearOp {α : Type} (bf : BloomFilter α) : BloomFilter α :=
  { bf with bits := List.replicate bf.bits.length false }

/-- Modelled from the spec: `bit_vec::BitVec::intersect` and `union`
(code of a dependency, not under src/) combine the two bit vectors
elementwise in place on `self` with the given boolean operation, return
whether `self` changed, and fault when the two lengths differ — per the
doc comments of the `Intersectable`/`Unionable` impls in src/bloom.rs
(Panics if the BloomFilters are not using the same number of bits;
returns true if self changed). -/
def bitvecCombine (op : Bool → Bool → Bool) (a b : List Bool) :
    Option (List Bool × Bool) :=
  if a.length = b.length then
    let c := List.zipWith op a b
    some (c, decide (c ≠ a))
  else none

/-- `Intersectable::intersect` for `BloomFilter`:
`self.bits.intersect(&other.bits)`. -/
def BloomFilter.intersect {α : Type} (bf other : BloomFilter α) :
    Option (BloomFilter α × Bool) :=
  (bitvecCombine (fun x y => x && y) bf.bits other.bits).map
    (fun p => ({ bf with bits := p.1 }, p.2))

/-- `Unionable::union` for `BloomFilter`:
`self.bits.union(&other.bits)`. -/
def BloomFilter.unionOp {α : Type} (bf other : BloomFilter α) :
    Option (BloomFilter α × Bool) :=
  (bitvecCombine (fun x y => x || y) bf.bits other.bits).map
    (fun p => ({ bf with bits := p.1 }, p.2))

/-- The value classes of an IEEE binary32 number, as needed to embed
the f32 sizing code in src/bloom.rs: NaN, signed infinities, and signed
finite values carrying an exact rational magnitude.  Finite results
that IEEE defines only up to rounding (nonzero finite products and
quotients, casts of nonzero integers) are delegated to an explicit
rounding parameter `rnd`, given the result sign and the exact
magnitude; the sizing theorems below quantify over every `rnd` and
hence hold in particular for the real binary32 round-to-nearest-even,
while the exact cases (zeroes, infinities, NaN propagation, the
saturating casts) are spelled out from the IEEE and Rust rules. -/
inductive F32 where
  | nan : F32
  | inf : Bool → F32
  | finite : Bool → ℚ → F32

/-- IEEE binary32 multiplication: NaN propagates, infinity times zero
is NaN, signs multiply, a zero operand gives a signed zero exactly, and
any other finite product is rounded by `rnd`. -/
def F32.mul (rnd : Bool → ℚ → F32) : F32 → F32 → F32
  | nan, _ => nan
  | _, nan => nan
  | inf s, inf t => inf (xor s t)
  | inf s, finite t m => if m = 0 then nan else inf (xor s t)
  | finite s m, inf t => if m = 0 then nan else inf (xor s t)
  | finite s m, finite t m2 =>
    if m = 0 ∨ m2 = 0 then finite (xor s t) 0 else rnd (xor s t) (m * m2)

/-- IEEE binary32 division: NaN propagates, 0/0 and inf/inf are NaN,
x/0 for nonzero finite x is a signed infinity, x/inf and 0/y are signed
zeroes, and any other finite quotient is rounded by `rnd`. -/
def F32.div (rnd : Bool → ℚ → F32) : F32 → F32 → F32
  | nan, _ => nan
  | _, nan => nan
  | inf _, inf _ => nan
  | inf s, finite t _ => inf (xor s t)
  | finite s _, inf t => finite (xor s t) 0
  | finite s m, finite t m2 =>
    if m = 0 then (if m2 = 0 then nan else finite (xor s t) 0)
    else if m2 = 0 then inf (xor s t)
    else rnd (xor s t) (m / m2)

/-- `f32::round`: round half away from zero on the magnitude; exact on
NaN, infinities and zeroes, and the rounded magnitude of a finite f32
is always representable, so no rounding parameter is involved. -/
def F32.round : F32 → F32
  | nan => nan
  | inf s => inf s
  | finite s m => finite s ((m + 1 / 2).floor : ℚ)

/-- The Rust saturating float-to-unsigned-integer cast (`expr as usize`
or `expr as u32`, Rust 1.45 and later): truncate toward zero and clamp
into the target range; NaN casts to 0, negative values clamp to 0. -/
def F32.toUnsigned (maxBound : Nat) : F32 → Nat
  | nan => 0
  | inf s => if s then 0 else maxBound
  | finite s m => if s then 0 else min maxBound m.floor.toNat

/-- `core::f32::consts::LN_2`: the binary32 constant 0x3F317218,
exactly 11629080 / 2^24. -/
def F32.LN2 : F32 :=
  F32.finite false (11629080 / 16777216)

/-- The f32 literal 1.0. -/
def F32.one : F32 :=
  F32.finite false 1

/-- An unsigned integer cast to f32 (`n as f32`): exact at 0, otherwise
some correctly rounded finite value, abstracted through `rnd`. -/
def natToF32 (rnd : Bool → ℚ → F32) (n : Nat) : F32 :=
  if n = 0 then F32.finite false 0 else rnd false (n : ℚ)

/-- `needed_bits` from src/bloom.rs:
`(num_items as f32 * ((1.0/false_pos_rate).ln() / ln22)).round() as
usize` with `ln22 = LN_2 * LN_2`, the platform libm `f32::ln`
abstracted as `lnOf` and binary32 rounding as `rnd`; the source
let-binding `ln22` is inlined at its single use. -/
def needed_bits (rnd : Bool → ℚ → F32) (lnOf : F32 → F32)
    (false_pos_rate : F32) (num_items : Nat) : Nat :=
  F32.toUnsigned (2 ^ 64 - 1)
    (F32.round (F32.mul rnd (natToF32 rnd num_items)
      (F32.div rnd (lnOf (F32.div rnd F32.one false_pos_rate))
        (F32.mul rnd F32.LN2 F32.LN2))))

/-- `optimal_num_hashes` from src/bloom.rs:
`min(max((num_bits as f32 / num_items as f32 * LN_2).round() as u32,
2), 200)` with `min`/`max` from std::cmp. -/
def optimal_num_hashes (rnd : Bool → ℚ → F32) (num_bits num_items : Nat) : Nat :=
  min (max (F32.toUnsigned (2 ^ 32 - 1)
    (F32.round (F32.mul rnd
      (F32.div rnd (natToF32 rnd num_bits) (natToF32 rnd num_items))
      F32.LN2))) 2) 200

/-- `BloomFilter::with_rate` (and `with_rate_and_hashers`): size the
filter from `needed_bits` and `optimal_num_hashes`. -/
def BloomFilter.with_rate {α : Type} (rnd : Bool → ℚ → F32) (lnOf : F32 → F32)
    (rate : F32) (expected_num_items : Nat) (b1 b2 : α → Nat) : BloomFilter α :=
  let bits := needed_bits rnd lnOf rate expected_num_items
  BloomFilter.with_size bits (optimal_num_hashes rnd bits expected_num_items) b1 b2

/-- Well-formedness of a `BloomFilter` as the soundness claim assumes
it: at least one bit and at least one hash. -/
def BloomFilter.WF {α : Type} (bf : BloomFilter α) : Prop :=
  1 ≤ bf.bits.length ∧ 1 ≤ bf.num_hashes

instance {α : Type} (bf : BloomFilter α) : Decidable bf.WF := by
  unfold BloomFilter.WF; infer_instance

/-- A sequence of further `insert` calls on a Bloom filter; `none` if
any of them panics. -/
def BloomFilter.runInserts {α : Type} (bf : BloomFilter α) : List α → Option (BloomFilter α)
  | [] => some bf
  | x :: xs =>
    match bf.insert x with
    | none => none
    | some (bf2, _) => bf2.runInserts xs

/-- `CountingBloomFilter` from src/counting.rs. -/
structure CountingBloomFilter (α : Type) where
  counters : ValueVec
  num_entries : Nat
  num_hashes : Nat
  hash_builder_one : α → Nat
  hash_builder_two : α → Nat

/-- `CountingBloomFilter::with_size` (and `with_size_and_hashers`). -/
def CountingBloomFilter.with_size {α : Type}
    (num_entries bits_per_entry num_hashes : Nat)
    (b1 b2 : α → Nat) : CountingBloomFilter α :=
  { counters := ValueVec.new bits_per_entry num_entries
    num_entries := num_entries
    num_hashes := num_hashes
    hash_builder_one := b1
    hash_builder_two := b2 }

/-- The probe values the counting filter operations iterate over. -/
def CountingBloomFilter.probesOf {α : Type} (cbf : CountingBloomFilter α)
    (item : α) : List Nat :=
  hashProbes item cbf.num_hashes cbf.hash_builder_one cbf.hash_builder_two

/-- The loop of `CountingBloomFilter::insert_get_count`: for each probe,
reduce by `num_entries` (remainder-by-zero panic when 0, modelled as
`none`), track the minimum pre-increment counter, and increment the
counter unless it is already at `max_value()`. -/
def cbfIgcLoop : ValueVec → Nat → Nat → List Nat → Option (ValueVec × Nat)
  | c, _, m, [] => some (c, m)
  | c, n, m, h :: hs =>
    if n = 0 then none
    else
      let idx := h % n
      let cur := c.get idx
      let m2 := if cur < m then cur else m
      if cur < c.max_value then
        match c.set idx (cur + 1) with
        | none => none
        | some c2 => cbfIgcLoop c2 n m2 hs
      else cbfIgcLoop c n m2 hs

/-- `CountingBloomFilter::insert_get_count`: returns the minimum
pre-increment counter value, starting from `u32::max_value()`. -/
def CountingBloomFilter.insert_get_count {α : Type} (cbf : CountingBloomFilter α)
    (item : α) : Option (CountingBloomFilter α × Nat) :=
  match cbfIgcLoop cbf.counters cbf.num_entries (2 ^ 32 - 1) (cbf.probesOf item) with
  | none => none
  | some (c2, m) => some ({ cbf with counters := c2 }, m)

/-- The loop of `CountingBloomFilter::insert` (ASMS impl), textually the
same loop as `insert_get_count`. -/
def cbfInsertLoop : ValueVec → Nat → Nat → List Nat → Option (ValueVec × Nat)
  | c, _, m, [] => some (c, m)
  | c, n, m, h :: hs =>
    if n = 0 then none
    else
      let idx := h % n
      let cur := c.get idx
      let m2 := if cur < m then cur else m
      if cur < c.max_value then
        match c.set idx (cur + 1) with
        | none => none
        | some c2 => cbfInsertLoop c2 n m2 hs
      else cbfInsertLoop c n m2 hs

/-- `CountingBloomFilter::insert` (ASMS impl): returns `min > 0`. -/
def CountingBloomFilter.insert {α : Type} (cbf : CountingBloomFilter α)
    (item : α) : Option (CountingBloomFilter α × Bool) :=
  match cbfInsertLoop cbf.counters cbf.num_entries (2 ^ 32 - 1) (cbf.probesOf item) with
  | none => none
  | some (c2, m) => some ({ cbf with counters := c2 }, decide (0 < m))

/-- The loop of `CountingBloomFilter::estimate_count`. -/
def cbfEstLoop : ValueVec → Nat → Nat → List Nat → Option Nat
  | _, _, m, [] => some m
  | c, n, m, h :: hs =>
    if n = 0 then none
    else
      let cur := c.get (h % n)
      cbfEstLoop c n (if cur < m then cur else m) hs

/-- `CountingBloomFilter::estimate_count`: read-only minimum over the
probed counters, starting from `u32::max_value()`. -/
def CountingBloomFilter.estimate_count {α : Type} (cbf : CountingBloomFilter α)
    (item : α) : Option Nat :=
  cbfEstLoop cbf.counters cbf.num_entries (2 ^ 32 - 1) (cbf.probesOf item)

/-- The loop of `CountingBloomFilter::contains` (ASMS impl): `false` as
soon as a probed counter is 0. -/
def cbfContainsLoop : ValueVec → Nat → List Nat → Option Bool
  | _, _, [] => some true
  | c, n, h :: hs =>
    if n = 0 then none
    else
      if c.get (h % n) = 0 then some false
      else cbfContainsLoop c n hs

/-- `CountingBloomFilter::contains` (ASMS impl). -/
def CountingBloomFilter.contains {α : Type} (cbf : CountingBloomFilter α)
    (item : α) : Option Bool :=
  cbfContainsLoop cbf.counters cbf.num_entries (cbf.probesOf item)

/-- The decrement loop of `CountingBloomFilter::remove`: tracks the
minimum pre-decrement counter; a probed counter of 0 hits the explicit
Rust panic (Contains returned true but a counter is 0), modelled as
`none`. -/
def cbfRemoveLoop : ValueVec → Nat → Nat → List Nat → Option (ValueVec × Nat)
  | c, _, m, [] => some (c, m)
  | c, n, m, h :: hs =>
    if n = 0 then none
    else
      let idx := h % n
      let cur := c.get idx
      let m2 := if cur < m then cur else m
      if 0 < cur then
        match c.set idx (cur - 1) with
        | none => none
        | some c2 => cbfRemoveLoop c2 n m2 hs
      else none

/-- `CountingBloomFilter::remove`: returns 0 without mutation when
`contains` is false, otherwise runs the decrement loop. -/
def CountingBloomFilter.remove {α : Type} (cbf : CountingBloomFilter α)
    (item : α) : Option (CountingBloomFilter α × Nat) :=
  match cbf.contains item with
  | none => none
  | some false => some (cbf, 0)
  | some true =>
    match cbfRemoveLoop cbf.counters cbf.num_entries (2 ^ 32 - 1) (cbf.probesOf item) with
    | none => none
    | some (c2, m) => some ({ cbf with counters := c2 }, m)

/-- `CountingBloomFilter::clear`. -/
def CountingBloomFilter.clearOp {α : Type} (cbf : CountingBloomFilter α) :
    CountingBloomFilter α :=
  { cbf with counters := cbf.counters.clear }

/-- Well-formedness of a `CountingBloomFilter` as the claims assume it:
a well-formed backing store sized to `num_entries` (in particular
`bits_per_entry` between 1 and 31 — a wider store cannot be constructed,
since `2u32.pow` in `ValueVec::new` overflows), at least one entry and
at least one hash. -/
def CountingBloomFilter.WF {α : Type} (cbf : CountingBloomFilter α) : Prop :=
  cbf.counters.WF cbf.num_entries ∧ 1 ≤ cbf.num_entries ∧ 1 ≤ cbf.num_hashes

instance {α : Type} (cbf : CountingBloomFilter α) : Decidable cbf.WF := by
  unfold CountingBloomFilter.WF; infer_instance

/-- A sequence of mutating calls on a counting filter: each element
`(x, true)` is `insert(x)`, each `(x, false)` is `insert_get_count(x)`;
`none` if any call panics. -/
def CountingBloomFilter.runOps {α : Type} (cbf : CountingBloomFilter α) :
    List (α × Bool) → Option (CountingBloomFilter α)
  | [] => some cbf
  | (x, true) :: ts =>
    match cbf.insert x with
    | none => none
    | some (cbf2, _) => cbf2.runOps ts
  | (x, false) :: ts =>
    match cbf.insert_get_count x with
    | none => none
    | some (cbf2, _) => cbf2.runOps ts

/-- How many of the calls in a `runOps` trace target item `x`. -/
def countItem {α : Type} [DecidableEq α] (x : α) : List (α × Bool) → Nat
  | [] => 0
  | (y, _) :: ts => (if y = x then 1 else 0) + countItem x ts

/-- Constant hash builder used by the concrete witness and
counterexample evaluations. -/
def hashZero : Nat → Nat := fun _ => 0

/- ### Storage-access helper lemmas -/

theorem getD_set_self {α : Type} {l : List α} {i : Nat} (h : i < l.length) (v d : α) :
    (l.set i v).getD i d = v := by
  simp [List.getD_eq_getElem?_getD, List.getElem?_set_self h]

theorem getD_set_ne {α : Type} {l : List α} {i j : Nat} (h : i ≠ j) (v d : α) :
    (l.set i v).getD j d = l.getD j d := by
  simp [List.getD_eq_getElem?_getD, List.getElem?_set_ne h]

theorem getD_lt_of_blocks_lt {l : List Nat} (hb : ∀ b ∈ l, b < 2 ^ 32) (i : Nat) :
    l.getD i 0 < 2 ^ 32 := by
  rcases Nat.lt_or_ge i l.length with h | h
  · have he : l.getD i 0 = l[i] := by
      simp [List.getD_eq_getElem?_getD, List.getElem?_eq_getElem h]
    rw [he]
    exact hb _ (List.getElem_mem h)
  · have he : l.getD i 0 = 0 := by
      simp [List.getD_eq_getElem?_getD, List.getElem?_eq_none h]
    rw [he]
    exact Nat.two_pow_pos 32

/- ### Bit-level core of set_bits and get_bits -/

theorem blockWrite_testBit (b v n s t : Nat) (hv : v < 2 ^ n) :
    (((b ^^^ (2 ^ n - 1) <<< s) &&& b) ||| v <<< s).testBit t
      = if s ≤ t ∧ t < s + n then v.testBit (t - s) else b.testBit t := by
  simp only [Nat.testBit_or, Nat.testBit_and, Nat.testBit_xor,
    Nat.testBit_shiftLeft, Nat.testBit_two_pow_sub_one, ge_iff_le]
  by_cases hs : s ≤ t
  · by_cases hn : t < s + n
    · have h1 : t - s < n := by omega
      rw [if_pos (And.intro hs hn)]
      simp only [decide_eq_true (show s ≤ t from hs), decide_eq_true (show t - s < n from h1),
        Bool.true_and, Bool.and_true]
      cases v.testBit (t - s) <;> cases b.testBit t <;> simp
    · have h1 : ¬(t - s < n) := by omega
      have h2 : v.testBit (t - s) = false :=
        Nat.testBit_lt_two_pow
          (Nat.lt_of_lt_of_le hv (Nat.pow_le_pow_right (by norm_num) (by omega)))
      rw [if_neg (by omega : ¬(s ≤ t ∧ t < s + n))]
      simp only [decide_eq_true (show s ≤ t from hs), decide_eq_false h1, h2,
        Bool.true_and, Bool.and_false, Bool.false_and, Bool.or_false]
      cases b.testBit t <;> simp
  · rw [if_neg (by omega : ¬(s ≤ t ∧ t < s + n))]
    simp [hs]

theorem blockRead_testBit (b n s t : Nat) :
    ((b &&& (2 ^ n - 1) <<< s) >>> s).testBit t
      = (decide (t < n) && b.testBit (s + t)) := by
  simp only [Nat.testBit_shiftRight, Nat.testBit_and, Nat.testBit_shiftLeft,
    Nat.testBit_two_pow_sub_one, ge_iff_le]
  have h1 : s + t - s = t := by omega
  have h2 : s ≤ s + t := by omega
  simp only [h1, decide_eq_true h2, Bool.true_and]
  cases b.testBit (s + t) <;> cases (decide (t < n)) <;> simp

theorem maskBranch_eq (vv : ValueVec) (n : Nat)
    (hmask : vv.mask = 2 ^ vv.bits_per_val - 1) :
    (if n = vv.bits_per_val then vv.mask else 2 ^ n - 1) = 2 ^ n - 1 := by
  by_cases h : n = vv.bits_per_val
  · rw [if_pos h, hmask, h]
  · rw [if_neg h]

theorem get_bits_testBit (vv : ValueVec) (idx n t : Nat)
    (hmask : vv.mask = 2 ^ vv.bits_per_val - 1) :
    (vv.get_bits idx n).testBit t
      = (decide (t < n) &&
          (vv.blocks.getD (idx / 32) 0).testBit (32 - idx % 32 - n + t)) := by
  have he : vv.get_bits idx n
      = (vv.blocks.getD (idx / 32) 0 &&&
          (if n = vv.bits_per_val then vv.mask else 2 ^ n - 1) <<< (32 - idx % 32 - n))
            >>> (32 - idx % 32 - n) := rfl
  rw [he, maskBranch_eq vv n hmask]
  exact blockRead_testBit _ _ _ _

theorem get_bits_le (vv : ValueVec) (idx n : Nat)
    (hmask : vv.mask = 2 ^ vv.bits_per_val - 1) :
    vv.get_bits idx n ≤ 2 ^ n - 1 := by
  have he : vv.get_bits idx n
      = (vv.blocks.getD (idx / 32) 0 &&&
          (if n = vv.bits_per_val then vv.mask else 2 ^ n - 1) <<< (32 - idx % 32 - n))
            >>> (32 - idx % 32 - n) := rfl
  rw [he, maskBranch_eq vv n hmask]
  calc (vv.blocks.getD (idx / 32) 0 &&& (2 ^ n - 1) <<< (32 - idx % 32 - n))
          >>> (32 - idx % 32 - n)
      ≤ ((2 ^ n - 1) <<< (32 - idx % 32 - n)) >>> (32 - idx % 32 - n) := by
        rw [Nat.shiftRight_eq_div_pow, Nat.shiftRight_eq_div_pow]
        exact Nat.div_le_div_right Nat.and_le_right
    _ = 2 ^ n - 1 := by
        rw [Nat.shiftLeft_eq, Nat.shiftRight_eq_div_pow]
        exact Nat.mul_div_cancel _ (Nat.two_pow_pos _)

theorem set_bits_fields (vv : ValueVec) (idx val n : Nat) :
    (vv.set_bits idx val n).bits_per_val = vv.bits_per_val ∧
    (vv.set_bits idx val n).mask = vv.mask ∧
    (vv.set_bits idx val n).blocks.length = vv.blocks.length := by
  refine ⟨rfl, rfl, ?_⟩
  show (vv.blocks.set _ _).length = vv.blocks.length
  exact List.length_set vv.blocks _ _

theorem set_bits_blocks_lt (vv : ValueVec) (idx val n : Nat)
    (hrange : idx % 32 + n ≤ 32) (hval : val < 2 ^ n)
    (hb : ∀ b ∈ vv.blocks, b < 2 ^ 32) :
    ∀ b ∈ (vv.set_bits idx val n).blocks, b < 2 ^ 32 := by
  intro b hbm
  have hbm2 : b ∈ vv.blocks.set (idx / 32)
      ((((vv.blocks.getD (idx / 32) 0) ^^^
          (if n = vv.bits_per_val then vv.mask else 2 ^ n - 1) <<< (32 - idx % 32 - n)) &&&
         vv.blocks.getD (idx / 32) 0) ||| val <<< (32 - idx % 32 - n)) := hbm
  rcases List.mem_or_eq_of_mem_set hbm2 with h | h
  · exact hb b h
  · subst h
    apply Nat.or_lt_two_pow
    · exact Nat.lt_of_le_of_lt Nat.and_le_right (getD_lt_of_blocks_lt hb _)
    · rw [Nat.shiftLeft_eq]
      calc val * 2 ^ (32 - idx % 32 - n)
          < 2 ^ n * 2 ^ (32 - idx % 32 - n) :=
            mul_lt_mul_of_pos_right hval (Nat.two_pow_pos _)
        _ ≤ 2 ^ 32 := by
            rw [← pow_add]
            exact Nat.pow_le_pow_right (by norm_num) (by omega)

theorem set_bits_absBitAt (vv : ValueVec) (idx val n : Nat)
    (hmask : vv.mask = 2 ^ vv.bits_per_val - 1)
    (hrange : idx % 32 + n ≤ 32) (hn : 1 ≤ n) (hval : val < 2 ^ n)
    (hblock : idx / 32 < vv.blocks.length) :
    ∀ p, (vv.set_bits idx val n).absBitAt p
      = if idx ≤ p ∧ p < idx + n then val.testBit (idx + n - 1 - p)
        else vv.absBitAt p := by
  intro p
  have hp32 : p % 32 < 32 := Nat.mod_lt _ (by norm_num)
  have hi32 : idx % 32 < 32 := Nat.mod_lt _ (by norm_num)
  have he : (vv.set_bits idx val n).absBitAt p
      = ((vv.blocks.set (idx / 32)
          ((((vv.blocks.getD (idx / 32) 0) ^^^
              (if n = vv.bits_per_val then vv.mask else 2 ^ n - 1) <<< (32 - idx % 32 - n)) &&&
             vv.blocks.getD (idx / 32) 0) ||| val <<< (32 - idx % 32 - n))).getD (p / 32) 0).testBit
          (31 - p % 32) := rfl
  rw [he, maskBranch_eq vv n hmask]
  by_cases hpb : p / 32 = idx / 32
  · rw [hpb, getD_set_self hblock]
    rw [blockWrite_testBit _ _ _ _ _ hval]
    by_cases hc : idx ≤ p ∧ p < idx + n
    · have e1 : 32 - idx % 32 - n ≤ 31 - p % 32 ∧
          31 - p % 32 < (32 - idx % 32 - n) + n := by omega
      rw [if_pos e1, if_pos hc]
      have e2 : 31 - p % 32 - (32 - idx % 32 - n) = idx + n - 1 - p := by omega
      rw [e2]
    · have e1 : ¬(32 - idx % 32 - n ≤ 31 - p % 32 ∧
          31 - p % 32 < (32 - idx % 32 - n) + n) := by omega
      rw [if_neg e1, if_neg hc]
      simp only [ValueVec.absBitAt, hpb]
  · rw [getD_set_ne (fun h => hpb h.symm)]
    have hc : ¬(idx ≤ p ∧ p < idx + n) := by omega
    rw [if_neg hc]
    rfl

/- ### Branch equations for get and set -/

theorem get_eq_straddle (vv : ValueVec) (i : Nat)
    (h : 32 - (i * vv.bits_per_val) % 32 < vv.bits_per_val) :
    vv.get i = (vv.get_bits (i * vv.bits_per_val) (32 - (i * vv.bits_per_val) % 32)
        <<< (vv.bits_per_val - (32 - (i * vv.bits_per_val) % 32))) |||
        vv.get_bits (i * vv.bits_per_val + (32 - (i * vv.bits_per_val) % 32))
          (vv.bits_per_val - (32 - (i * vv.bits_per_val) % 32)) := by
  simp only [ValueVec.get]
  rw [if_pos h]

theorem get_eq_nostraddle (vv : ValueVec) (i : Nat)
    (h : ¬(32 - (i * vv.bits_per_val) % 32 < vv.bits_per_val)) :
    vv.get i = vv.get_bits (i * vv.bits_per_val) vv.bits_per_val := by
  simp only [ValueVec.get]
  rw [if_neg h]

theorem set_eq_straddle (vv : ValueVec) (i val : Nat)
    (hval : ¬val > vv.mask)
    (h : 32 - (i * vv.bits_per_val) % 32 < vv.bits_per_val) :
    vv.set i val = some ((vv.set_bits (i * vv.bits_per_val)
        (val >>> (vv.bits_per_val - (32 - (i * vv.bits_per_val) % 32)))
        (32 - (i * vv.bits_per_val) % 32)).set_bits
          (i * vv.bits_per_val + (32 - (i * vv.bits_per_val) % 32))
          (val &&& (2 ^ (vv.bits_per_val - (32 - (i * vv.bits_per_val) % 32)) - 1))
          (vv.bits_per_val - (32 - (i * vv.bits_per_val) % 32))) := by
  simp only [ValueVec.set]
  rw [if_neg hval, if_pos h]

theorem set_eq_nostraddle (vv : ValueVec) (i val : Nat)
    (hval : ¬val > vv.mask)
    (h : ¬(32 - (i * vv.bits_per_val) % 32 < vv.bits_per_val)) :
    vv.set i val = some (vv.set_bits (i * vv.bits_per_val) val vv.bits_per_val) := by
  simp only [ValueVec.set]
  rw [if_neg hval, if_neg h]

/- ### The get characterisation in terms of stored bits -/

theorem get_bits_testBit_abs (vv : ValueVec) (idx n t : Nat)
    (hmask : vv.mask = 2 ^ vv.bits_per_val - 1)
    (hrange : idx % 32 + n ≤ 32) (ht : t < n) :
    (vv.get_bits idx n).testBit t = vv.absBitAt (idx + (n - 1 - t)) := by
  rw [get_bits_testBit vv idx n t hmask]
  simp only [decide_eq_true ht, Bool.true_and, ValueVec.absBitAt]
  have e1 : (idx + (n - 1 - t)) / 32 = idx / 32 := by omega
  have e2 : 31 - (idx + (n - 1 - t)) % 32 = 32 - idx % 32 - n + t := by omega
  rw [e1, e2]

theorem get_testBit (vv : ValueVec) (i t : Nat)
    (hbpv1 : 1 ≤ vv.bits_per_val) (hbpv31 : vv.bits_per_val ≤ 31)
    (hmask : vv.mask = 2 ^ vv.bits_per_val - 1) :
    (vv.get i).testBit t
      = (decide (t < vv.bits_per_val) &&
         vv.absBitAt (i * vv.bits_per_val + (vv.bits_per_val - 1 - t))) := by
  have hi32 : (i * vv.bits_per_val) % 32 < 32 := Nat.mod_lt _ (by norm_num)
  by_cases hstr : 32 - (i * vv.bits_per_val) % 32 < vv.bits_per_val
  · rw [get_eq_straddle vv i hstr]
    simp only [Nat.testBit_or, Nat.testBit_shiftLeft, ge_iff_le]
    by_cases ht2 : t < vv.bits_per_val - (32 - (i * vv.bits_per_val) % 32)
    · have hA : ¬(vv.bits_per_val - (32 - (i * vv.bits_per_val) % 32) ≤ t) := by omega
      rw [get_bits_testBit_abs vv _ _ t hmask (by omega) ht2]
      simp only [decide_eq_false hA, Bool.false_and, Bool.false_or,
        decide_eq_true ht2, Bool.true_and]
      have ht : t < vv.bits_per_val := by omega
      rw [show i * vv.bits_per_val + (32 - (i * vv.bits_per_val) % 32) +
            (vv.bits_per_val - (32 - (i * vv.bits_per_val) % 32) - 1 - t)
          = i * vv.bits_per_val + (vv.bits_per_val - 1 - t) from by omega]
      simp [decide_eq_true ht]
    · by_cases ht : t < vv.bits_per_val
      · have hA : vv.bits_per_val - (32 - (i * vv.bits_per_val) % 32) ≤ t := by omega
        have htl : t - (vv.bits_per_val - (32 - (i * vv.bits_per_val) % 32))
            < 32 - (i * vv.bits_per_val) % 32 := by omega
        rw [get_bits_testBit_abs vv _ _ _ hmask (by omega) htl,
          get_bits_testBit vv _ _ _ hmask]
        simp only [decide_eq_true hA, Bool.true_and, decide_eq_false ht2,
          Bool.false_and, Bool.or_false]
        rw [show i * vv.bits_per_val + (32 - (i * vv.bits_per_val) % 32 - 1 -
              (t - (vv.bits_per_val - (32 - (i * vv.bits_per_val) % 32))))
            = i * vv.bits_per_val + (vv.bits_per_val - 1 - t) from by omega]
        simp [decide_eq_true ht]
      · rw [get_bits_testBit vv _ _ _ hmask, get_bits_testBit vv _ _ _ hmask]
        have h1 : ¬(t - (vv.bits_per_val - (32 - (i * vv.bits_per_val) % 32))
            < 32 - (i * vv.bits_per_val) % 32) := by omega
        simp [h1, ht, ht2]
  · rw [get_eq_nostraddle vv i hstr]
    by_cases ht : t < vv.bits_per_val
    · rw [get_bits_testBit_abs vv _ _ t hmask (by omega) ht]
      simp [decide_eq_true ht]
    · rw [get_bits_testBit vv _ _ _ hmask]
      simp [ht]

theorem ValueVec.get_le (vv : ValueVec) (i : Nat)
    (hmask : vv.mask = 2 ^ vv.bits_per_val - 1) (hbpv31 : vv.bits_per_val ≤ 31) :
    vv.get i ≤ vv.mask := by
  have hpow : 0 < 2 ^ vv.bits_per_val := Nat.two_pow_pos _
  by_cases hstr : 32 - (i * vv.bits_per_val) % 32 < vv.bits_per_val
  · rw [get_eq_straddle vv i hstr]
    have hl := get_bits_le vv (i * vv.bits_per_val)
      (32 - (i * vv.bits_per_val) % 32) hmask
    have hu := get_bits_le vv (i * vv.bits_per_val + (32 - (i * vv.bits_per_val) % 32))
      (vv.bits_per_val - (32 - (i * vv.bits_per_val) % 32)) hmask
    have hponel : 0 < 2 ^ (32 - (i * vv.bits_per_val) % 32) := Nat.two_pow_pos _
    have hponer : 0 < 2 ^ (vv.bits_per_val - (32 - (i * vv.bits_per_val) % 32)) :=
      Nat.two_pow_pos _
    have h2 : vv.get_bits (i * vv.bits_per_val) (32 - (i * vv.bits_per_val) % 32)
        <<< (vv.bits_per_val - (32 - (i * vv.bits_per_val) % 32)) < 2 ^ vv.bits_per_val := by
      rw [Nat.shiftLeft_eq]
      calc vv.get_bits (i * vv.bits_per_val) (32 - (i * vv.bits_per_val) % 32)
            * 2 ^ (vv.bits_per_val - (32 - (i * vv.bits_per_val) % 32))
          < 2 ^ (32 - (i * vv.bits_per_val) % 32)
            * 2 ^ (vv.bits_per_val - (32 - (i * vv.bits_per_val) % 32)) :=
            mul_lt_mul_of_pos_right (by omega) hponer
        _ = 2 ^ vv.bits_per_val := by
            rw [← pow_add]
            congr 1
            omega
    have h3 : vv.get_bits (i * vv.bits_per_val + (32 - (i * vv.bits_per_val) % 32))
        (vv.bits_per_val - (32 - (i * vv.bits_per_val) % 32)) < 2 ^ vv.bits_per_val := by
      have hle : 2 ^ (vv.bits_per_val - (32 - (i * vv.bits_per_val) % 32))
          ≤ 2 ^ vv.bits_per_val := Nat.pow_le_pow_right (by norm_num) (by omega)
      omega
    have h4 := Nat.or_lt_two_pow h2 h3
    omega
  · rw [get_eq_nostraddle vv i hstr]
    have := get_bits_le vv (i * vv.bits_per_val) vv.bits_per_val hmask
    omega

/- ### The set characterisation in terms of stored bits -/

theorem set_absBitAt (vv : ValueVec) (i val : Nat)
    (hbpv1 : 1 ≤ vv.bits_per_val) (hbpv31 : vv.bits_per_val ≤ 31)
    (hmask : vv.mask = 2 ^ vv.bits_per_val - 1)
    (hval : val ≤ vv.mask)
    (hlen : i * vv.bits_per_val + vv.bits_per_val ≤ 32 * vv.blocks.length)
    (hblocks : ∀ b ∈ vv.blocks, b < 2 ^ 32) :
    ∃ vv2, vv.set i val = some vv2 ∧
      vv2.bits_per_val = vv.bits_per_val ∧ vv2.mask = vv.mask ∧
      vv2.blocks.length = vv.blocks.length ∧
      (∀ b ∈ vv2.blocks, b < 2 ^ 32) ∧
      ∀ p, vv2.absBitAt p
        = if i * vv.bits_per_val ≤ p ∧ p < i * vv.bits_per_val + vv.bits_per_val
          then val.testBit (i * vv.bits_per_val + vv.bits_per_val - 1 - p)
          else vv.absBitAt p := by
  have hpow : 0 < 2 ^ vv.bits_per_val := Nat.two_pow_pos _
  have hvlt : val < 2 ^ vv.bits_per_val := by omega
  have hvng : ¬val > vv.mask := by omega
  have hi32 : (i * vv.bits_per_val) % 32 < 32 := Nat.mod_lt _ (by norm_num)
  by_cases hstr : 32 - (i * vv.bits_per_val) % 32 < vv.bits_per_val
  · have hlow : val >>> (vv.bits_per_val - (32 - (i * vv.bits_per_val) % 32))
        < 2 ^ (32 - (i * vv.bits_per_val) % 32) := by
      rw [Nat.shiftRight_eq_div_pow, Nat.div_lt_iff_lt_mul (Nat.two_pow_pos _)]
      calc val < 2 ^ vv.bits_per_val := hvlt
        _ = 2 ^ (32 - (i * vv.bits_per_val) % 32)
            * 2 ^ (vv.bits_per_val - (32 - (i * vv.bits_per_val) % 32)) := by
            rw [← pow_add]
            congr 1
            omega
    have hup : val &&& (2 ^ (vv.bits_per_val - (32 - (i * vv.bits_per_val) % 32)) - 1)
        < 2 ^ (vv.bits_per_val - (32 - (i * vv.bits_per_val) % 32)) := by
      have h2 : val &&& (2 ^ (vv.bits_per_val - (32 - (i * vv.bits_per_val) % 32)) - 1)
          ≤ 2 ^ (vv.bits_per_val - (32 - (i * vv.bits_per_val) % 32)) - 1 :=
        Nat.and_le_right
      have h3 : 0 < 2 ^ (vv.bits_per_val - (32 - (i * vv.bits_per_val) % 32)) :=
        Nat.two_pow_pos _
      omega
    set A := vv.set_bits (i * vv.bits_per_val)
      (val >>> (vv.bits_per_val - (32 - (i * vv.bits_per_val) % 32)))
      (32 - (i * vv.bits_per_val) % 32) with hA
    have hchar1 := set_bits_absBitAt vv (i * vv.bits_per_val)
      (val >>> (vv.bits_per_val - (32 - (i * vv.bits_per_val) % 32)))
      (32 - (i * vv.bits_per_val) % 32) hmask (by omega) (by omega) hlow (by omega)
    have hblocks1 := set_bits_blocks_lt vv (i * vv.bits_per_val)
      (val >>> (vv.bits_per_val - (32 - (i * vv.bits_per_val) % 32)))
      (32 - (i * vv.bits_per_val) % 32) (by omega) hlow hblocks
    have hlenA : A.blocks.length = vv.blocks.length := by
      rw [hA]
      exact (set_bits_fields vv _ _ _).2.2
    have hblocksA : ∀ b ∈ A.blocks, b < 2 ^ 32 := by
      rw [hA]
      exact hblocks1
    have hmaskA : A.mask = 2 ^ A.bits_per_val - 1 := hmask
    have hchar2 := set_bits_absBitAt A
      (i * vv.bits_per_val + (32 - (i * vv.bits_per_val) % 32))
      (val &&& (2 ^ (vv.bits_per_val - (32 - (i * vv.bits_per_val) % 32)) - 1))
      (vv.bits_per_val - (32 - (i * vv.bits_per_val) % 32)) hmaskA (by omega)
      (by omega) hup (by rw [hlenA]; omega)
    have hblocks2 := set_bits_blocks_lt A
      (i * vv.bits_per_val + (32 - (i * vv.bits_per_val) % 32))
      (val &&& (2 ^ (vv.bits_per_val - (32 - (i * vv.bits_per_val) % 32)) - 1))
      (vv.bits_per_val - (32 - (i * vv.bits_per_val) % 32)) (by omega) hup hblocksA
    refine ⟨A.set_bits (i * vv.bits_per_val + (32 - (i * vv.bits_per_val) % 32))
      (val &&& (2 ^ (vv.bits_per_val - (32 - (i * vv.bits_per_val) % 32)) - 1))
      (vv.bits_per_val - (32 - (i * vv.bits_per_val) % 32)),
      set_eq_straddle vv i val hvng hstr, rfl, rfl, ?_, hblocks2, ?_⟩
    · rw [(set_bits_fields A _ _ _).2.2]
      exact hlenA
    · intro p
      rw [hchar2 p]
      by_cases hC : i * vv.bits_per_val ≤ p ∧ p < i * vv.bits_per_val + vv.bits_per_val
      · rw [if_pos hC]
        by_cases hC2 : i * vv.bits_per_val + (32 - (i * vv.bits_per_val) % 32) ≤ p ∧
            p < i * vv.bits_per_val + (32 - (i * vv.bits_per_val) % 32) +
              (vv.bits_per_val - (32 - (i * vv.bits_per_val) % 32))
        · rw [if_pos hC2]
          rw [show i * vv.bits_per_val + (32 - (i * vv.bits_per_val) % 32) +
                (vv.bits_per_val - (32 - (i * vv.bits_per_val) % 32)) - 1 - p
              = i * vv.bits_per_val + vv.bits_per_val - 1 - p from by omega]
          simp only [Nat.testBit_and, Nat.testBit_two_pow_sub_one]
          have hlt : i * vv.bits_per_val + vv.bits_per_val - 1 - p
              < vv.bits_per_val - (32 - (i * vv.bits_per_val) % 32) := by omega
          simp [decide_eq_true hlt]
        · rw [if_neg hC2, hA, hchar1 p]
          have hC1 : i * vv.bits_per_val ≤ p ∧
              p < i * vv.bits_per_val + (32 - (i * vv.bits_per_val) % 32) := by omega
          rw [if_pos hC1, Nat.testBit_shiftRight]
          rw [show vv.bits_per_val - (32 - (i * vv.bits_per_val) % 32) +
                (i * vv.bits_per_val + (32 - (i * vv.bits_per_val) % 32) - 1 - p)
              = i * vv.bits_per_val + vv.bits_per_val - 1 - p from by omega]
      · rw [if_neg hC]
        have hC2 : ¬(i * vv.bits_per_val + (32 - (i * vv.bits_per_val) % 32) ≤ p ∧
            p < i * vv.bits_per_val + (32 - (i * vv.bits_per_val) % 32) +
              (vv.bits_per_val - (32 - (i * vv.bits_per_val) % 32))) := by omega
        have hC1 : ¬(i * vv.bits_per_val ≤ p ∧
            p < i * vv.bits_per_val + (32 - (i * vv.bits_per_val) % 32)) := by omega
        rw [if_neg hC2, hA, hchar1 p, if_neg hC1]
  · have hchar1 := set_bits_absBitAt vv (i * vv.bits_per_val) val vv.bits_per_val
      hmask (by omega) (by omega) hvlt (by omega)
    refine ⟨vv.set_bits (i * vv.bits_per_val) val vv.bits_per_val,
      set_eq_nostraddle vv i val hvng hstr, rfl, rfl,
      (set_bits_fields vv _ _ _).2.2,
      set_bits_blocks_lt vv _ _ _ (by omega) hvlt hblocks, ?_⟩
    intro p
    rw [hchar1 p]

/- ### Slot-level specification of set -/

theorem ValueVec.set_spec (vv : ValueVec) (count i val : Nat)
    (hwf : vv.WF count) (hi : i < count) (hval : val ≤ vv.mask) :
    ∃ vv2, vv.set i val = some vv2 ∧ vv2.WF count ∧
      vv2.bits_per_val = vv.bits_per_val ∧ vv2.mask = vv.mask ∧
      vv2.get i = val ∧
      ∀ j, j ≠ i → vv2.get j = vv.get j := by
  obtain ⟨hbpv1, hbpv31, hmask, hcap, hblocks⟩ := hwf
  have hpow : 0 < 2 ^ vv.bits_per_val := Nat.two_pow_pos _
  have hvlt : val < 2 ^ vv.bits_per_val := by omega
  have hlen : i * vv.bits_per_val + vv.bits_per_val ≤ 32 * vv.blocks.length := by
    have h2 : vv.bits_per_val * (i + 1) ≤ vv.bits_per_val * count :=
      Nat.mul_le_mul_left _ (by omega)
    have h3 : vv.bits_per_val * (i + 1) = i * vv.bits_per_val + vv.bits_per_val := by
      ring
    omega
  obtain ⟨vv2, hset, hb, hm, hl, hbl, hchar⟩ :=
    set_absBitAt vv i val hbpv1 hbpv31 hmask hval hlen hblocks
  have hb1 : 1 ≤ vv2.bits_per_val := by omega
  have hb31 : vv2.bits_per_val ≤ 31 := by omega
  have hm2 : vv2.mask = 2 ^ vv2.bits_per_val - 1 := by rw [hb, hm]; exact hmask
  refine ⟨vv2, hset, ?_, hb, hm, ?_, ?_⟩
  · exact ⟨hb1, hb31, hm2, by rw [hb, hl]; exact hcap, hbl⟩
  · apply Nat.eq_of_testBit_eq
    intro t
    rw [get_testBit vv2 i t hb1 hb31 hm2, hb, hchar _]
    by_cases ht : t < vv.bits_per_val
    · have hin : i * vv.bits_per_val ≤ i * vv.bits_per_val + (vv.bits_per_val - 1 - t) ∧
          i * vv.bits_per_val + (vv.bits_per_val - 1 - t)
            < i * vv.bits_per_val + vv.bits_per_val := by omega
      rw [if_pos hin]
      rw [show i * vv.bits_per_val + vv.bits_per_val - 1 -
            (i * vv.bits_per_val + (vv.bits_per_val - 1 - t)) = t from by omega]
      simp [decide_eq_true ht]
    · have hbit : val.testBit t = false :=
        Nat.testBit_lt_two_pow
          (Nat.lt_of_lt_of_le hvlt (Nat.pow_le_pow_right (by norm_num) (by omega)))
      simp [ht, hbit]
  · intro j hj
    apply Nat.eq_of_testBit_eq
    intro t
    rw [get_testBit vv2 j t hb1 hb31 hm2, hb,
      get_testBit vv j t hbpv1 hbpv31 hmask, hchar _]
    by_cases ht : t < vv.bits_per_val
    · have hdisj : ¬(i * vv.bits_per_val ≤
          j * vv.bits_per_val + (vv.bits_per_val - 1 - t) ∧
          j * vv.bits_per_val + (vv.bits_per_val - 1 - t)
            < i * vv.bits_per_val + vv.bits_per_val) := by
        rcases Nat.lt_or_ge j i with h | h
        · have h4 : (j + 1) * vv.bits_per_val ≤ i * vv.bits_per_val :=
            Nat.mul_le_mul_right _ (by omega)
          have h5 : (j + 1) * vv.bits_per_val
              = j * vv.bits_per_val + vv.bits_per_val := by ring
          omega
        · have hji : i < j := by omega
          have h4 : (i + 1) * vv.bits_per_val ≤ j * vv.bits_per_val :=
            Nat.mul_le_mul_right _ (by omega)
          have h5 : (i + 1) * vv.bits_per_val
              = i * vv.bits_per_val + vv.bits_per_val := by ring
          omega
      rw [if_neg hdisj]
    · simp [ht]

/-- Claim C1: packed value store round trip with framing.  For every
well-formed `ValueVec` with `bits_per_val` in 1..31 and a positive slot
count, every in-range slot `i` and every value `v ≤ 2^bits_per_val - 1`,
`set i v` succeeds (no contract-violation panic), `get i` afterwards
returns exactly `v`, and every other slot `j ≠ i` reads the same value
as before — including when slot `i` straddles a 32-bit word boundary,
which the proof covers because it goes through the boundary-split
branches of both `set` and `get`. -/
theorem valuevec_roundtrip_framing (vv : ValueVec) (count i j v : Nat)
    (hwf : vv.WF count) (hcount : 0 < count) (hi : i < count) (hj : j < count)
    (hij : j ≠ i) (hv : v ≤ 2 ^ vv.bits_per_val - 1) :
    ∃ vv2, vv.set i v = some vv2 ∧ vv2.get i = v ∧ vv2.get j = vv.get j := by
  have hv2 : v ≤ vv.mask := by rw [hwf.2.2.1]; exact hv
  obtain ⟨vv2, hset, _, _, _, hget, hother⟩ := ValueVec.set_spec vv count i v hwf hi hv2
  exact ⟨vv2, hset, hget, hother j hij⟩

/-- Witness for C1 at a concrete boundary-straddling input: a 3-bit
store with 12 slots, writing 7 into slot 10 (bits 30..32, which cross
the first word boundary), with slot 2 unchanged. -/
theorem valuevec_roundtrip_framing_witness :
    (ValueVec.new 3 12).WF 12 ∧ 7 ≤ 2 ^ (ValueVec.new 3 12).bits_per_val - 1 ∧
    ∃ vv2, (ValueVec.new 3 12).set 10 7 = some vv2 ∧
      vv2.get 10 = 7 ∧ vv2.get 2 = (ValueVec.new 3 12).get 2 :=
  ⟨by decide, by decide,
    valuevec_roundtrip_framing (ValueVec.new 3 12) 12 10 2 7
      (by decide) (by decide) (by decide) (by decide) (by decide) (by decide)⟩

/- ### The probe generator -/

theorem HashIter.emit_spec : ∀ (fuel h1 h2 i count : Nat), count - i ≤ fuel →
    i ≤ count →
    HashIter.emit ⟨h1, h2, i, count⟩ fuel
      = (List.range' i (count - i)).map (probeVal h1 h2) := by
  intro fuel
  induction fuel with
  | zero =>
    intro h1 h2 i count hle hic
    have h0 : count - i = 0 := by omega
    rw [h0]
    rfl
  | succ fuel ih =>
    intro h1 h2 i count hle hic
    by_cases hic2 : i = count
    · subst hic2
      simp [HashIter.emit, HashIter.next]
    · have hnext : HashIter.next ⟨h1, h2, i, count⟩
          = some (probeVal h1 h2 i, ⟨h1, h2, i + 1, count⟩) := by
        simp [HashIter.next, hic2, probeVal]
      have hemit : HashIter.emit ⟨h1, h2, i, count⟩ (fuel + 1)
          = probeVal h1 h2 i :: HashIter.emit ⟨h1, h2, i + 1, count⟩ fuel := by
        simp only [HashIter.emit, hnext]
      rw [hemit, ih h1 h2 (i + 1) count (by omega) (by omega)]
      rw [show count - i = (count - (i + 1)) + 1 from by omega]
      rfl

theorem hashProbes_eq {α : Type} (item : α) (k : Nat) (b1 b2 : α → Nat) :
    hashProbes item k b1 b2 = (List.range k).map (probeVal (b1 item) (b2 item)) := by
  show HashIter.emit ⟨b1 item, b2 item, 0, k⟩ k = _
  rw [HashIter.emit_spec k (b1 item) (b2 item) 0 k (by omega) (by omega),
    List.range_eq_range']
  rfl

/-- Claim C4: for every item, probe count `k` and pair of hash
builders, the generator computes `h1` and `h2` exactly once when built
(first conjunct: the constructed iterator state holds the two applied
hash values and a cursor, nothing is recomputed per probe), yields
exactly `k` values even when pulled `k + 1` times — index 0 is `h1`,
index 1 is `h2` (present only when `k ≥ 2`), index `i ≥ 2` is
`((h1 + i) mod 2^64) * h2 mod 2^64`, the wrapping add and multiply —
and `next` on the exhausted state returns `none` (third conjunct). -/
theorem hash_iter_spec {α : Type} (b1 b2 : α → Nat) (item : α) (k : Nat) :
    HashIter.fromItem item k b1 b2 = ⟨b1 item, b2 item, 0, k⟩ ∧
    HashIter.emit (HashIter.fromItem item k b1 b2) (k + 1)
      = (List.range k).map (probeVal (b1 item) (b2 item)) ∧
    HashIter.next ⟨b1 item, b2 item, k, k⟩ = none := by
  refine ⟨rfl, ?_, by simp [HashIter.next]⟩
  show HashIter.emit ⟨b1 item, b2 item, 0, k⟩ (k + 1) = _
  rw [HashIter.emit_spec (k + 1) (b1 item) (b2 item) 0 k (by omega) (by omega),
    List.range_eq_range']
  rfl

/- ### insert and insert_get_count share one loop -/

theorem cbfLoops_eq : ∀ (hs : List Nat) (c : ValueVec) (n m : Nat),
    cbfInsertLoop c n m hs = cbfIgcLoop c n m hs := by
  intro hs
  induction hs with
  | nil => intro c n m; rfl
  | cons h t ih =>
    intro c n m
    simp only [cbfInsertLoop, cbfIgcLoop]
    by_cases hn : n = 0
    · simp [hn]
    · simp only [if_neg hn]
      by_cases hcur : c.get (h % n) < c.max_value
      · simp only [if_pos hcur]
        cases c.set (h % n) (c.get (h % n) + 1) with
        | none => rfl
        | some c2 => exact ih c2 n _
      · simp only [if_neg hcur]
        exact ih c n _

/-- Claim C10: `insert` and `insert_get_count` are equivalent: on the
same filter state and item they perform identical counter mutations
(their loops are the same saturating-increment loop), both panic in the
same situations, and the boolean `insert` returns is exactly
`insert_get_count`s result compared against 0. -/
theorem insert_equiv_insert_get_count {α : Type} (cbf : CountingBloomFilter α)
    (item : α) :
    cbf.insert item = (cbf.insert_get_count item).map
      (fun p => (p.1, decide (0 < p.2))) := by
  unfold CountingBloomFilter.insert CountingBloomFilter.insert_get_count
  rw [cbfLoops_eq]
  cases cbfIgcLoop cbf.counters cbf.num_entries (2 ^ 32 - 1) (cbf.probesOf item) with
  | none => rfl
  | some p =>
    cases p with
    | mk c2 m => rfl

theorem getElem?_eq_some_getD {α : Type} {l : List α} {i : Nat} (d : α)
    (h : i < l.length) : l[i]? = some (l.getD i d) := by
  simp [List.getD_eq_getElem?_getD, List.getElem?_eq_getElem h]

/- ### The counting-filter increment loop -/

theorem cbfIgcLoop_spec : ∀ (hs : List Nat) (c : ValueVec) (n m : Nat),
    1 ≤ n → c.WF n →
    ∃ c2 m2, cbfIgcLoop c n m hs = some (c2, m2) ∧ c2.WF n ∧
      c2.bits_per_val = c.bits_per_val ∧ c2.mask = c.mask ∧
      (∀ idx, c.get idx ≤ c2.get idx) ∧
      (∀ h ∈ hs, min (c.get (h % n) + 1) c.mask ≤ c2.get (h % n)) := by
  intro hs
  induction hs with
  | nil =>
    intro c n m hn hwf
    exact ⟨c, m, rfl, hwf, rfl, rfl, fun idx => Nat.le_refl _, by simp⟩
  | cons h t ih =>
    intro c n m hn hwf
    have hmask := hwf.2.2.1
    have hbpv1 := hwf.1
    have hbpv31 := hwf.2.1
    have hpow : 0 < 2 ^ c.bits_per_val := Nat.two_pow_pos _
    have hmask1 : 1 ≤ c.mask := by
      have h2 : (2 : Nat) ^ 1 ≤ 2 ^ c.bits_per_val :=
        Nat.pow_le_pow_right (by norm_num) hbpv1
      omega
    have hidx : h % n < n := Nat.mod_lt _ (by omega)
    have hle := ValueVec.get_le c (h % n) hmask hbpv31
    simp only [cbfIgcLoop, if_neg (show ¬n = 0 from by omega)]
    by_cases hcur : c.get (h % n) < c.max_value
    · rw [if_pos hcur]
      have hcurm : c.get (h % n) < c.mask := hcur
      obtain ⟨c1, hset, hwf1, hb1, hm1, hgetself, hgetother⟩ :=
        ValueVec.set_spec c n (h % n) (c.get (h % n) + 1) hwf hidx (by omega)
      rw [hset]
      obtain ⟨c2, m2, hrun, hwf2, hb2, hm2, hmono2, hprobe2⟩ :=
        ih c1 n (if c.get (h % n) < m then c.get (h % n) else m) hn hwf1
      have hstep : ∀ idx, c.get idx ≤ c1.get idx := by
        intro idx
        by_cases hq : idx = h % n
        · rw [hq, hgetself]; omega
        · rw [hgetother idx hq]
      refine ⟨c2, m2, hrun, hwf2, hb2.trans hb1, hm2.trans hm1,
        fun idx => Nat.le_trans (hstep idx) (hmono2 idx), ?_⟩
      intro h2 hmem
      rcases List.mem_cons.1 hmem with he | ht2
      · subst he
        have h3 := hmono2 (h2 % n)
        rw [hgetself] at h3
        omega
      · have h3 := hprobe2 h2 ht2
        have h4 := hstep (h2 % n)
        rw [hm1] at h3
        omega
    · rw [if_neg hcur]
      have hcurm : c.get (h % n) = c.mask := by
        unfold ValueVec.max_value at hcur
        omega
      obtain ⟨c2, m2, hrun, hwf2, hb2, hm2, hmono2, hprobe2⟩ :=
        ih c n (if c.get (h % n) < m then c.get (h % n) else m) hn hwf
      refine ⟨c2, m2, hrun, hwf2, hb2, hm2, hmono2, ?_⟩
      intro h2 hmem
      rcases List.mem_cons.1 hmem with he | ht2
      · subst he
        have h3 := hmono2 (h2 % n)
        omega
      · exact hprobe2 h2 ht2

/- ### Step specifications for the counting filter operations -/

theorem cbfInsert_spec {α : Type} (cbf : CountingBloomFilter α) (x : α)
    (hwf : cbf.WF) :
    ∃ cbf2 r, cbf.insert x = some (cbf2, r) ∧ cbf2.WF ∧
      cbf2.num_entries = cbf.num_entries ∧ cbf2.num_hashes = cbf.num_hashes ∧
      cbf2.hash_builder_one = cbf.hash_builder_one ∧
      cbf2.hash_builder_two = cbf.hash_builder_two ∧
      cbf2.counters.mask = cbf.counters.mask ∧
      (∀ idx, cbf.counters.get idx ≤ cbf2.counters.get idx) ∧
      (∀ h ∈ cbf.probesOf x,
        min (cbf.counters.get (h % cbf.num_entries) + 1) cbf.counters.mask
          ≤ cbf2.counters.get (h % cbf.num_entries)) := by
  obtain ⟨hvv, hn, hk⟩ := hwf
  obtain ⟨c2, m2, hrun, hwf2, hb2, hm2, hmono, hprobe⟩ :=
    cbfIgcLoop_spec (cbf.probesOf x) cbf.counters cbf.num_entries (2 ^ 32 - 1) hn hvv
  refine ⟨{ cbf with counters := c2 }, decide (0 < m2), ?_, ⟨hwf2, hn, hk⟩,
    rfl, rfl, rfl, rfl, hm2, hmono, hprobe⟩
  unfold CountingBloomFilter.insert
  rw [cbfLoops_eq, hrun]

theorem cbfIgc_spec {α : Type} (cbf : CountingBloomFilter α) (x : α)
    (hwf : cbf.WF) :
    ∃ cbf2 m, cbf.insert_get_count x = some (cbf2, m) ∧ cbf2.WF ∧
      cbf2.num_entries = cbf.num_entries ∧ cbf2.num_hashes = cbf.num_hashes ∧
      cbf2.hash_builder_one = cbf.hash_builder_one ∧
      cbf2.hash_builder_two = cbf.hash_builder_two ∧
      cbf2.counters.mask = cbf.counters.mask ∧
      (∀ idx, cbf.counters.get idx ≤ cbf2.counters.get idx) ∧
      (∀ h ∈ cbf.probesOf x,
        min (cbf.counters.get (h % cbf.num_entries) + 1) cbf.counters.mask
          ≤ cbf2.counters.get (h % cbf.num_entries)) := by
  obtain ⟨hvv, hn, hk⟩ := hwf
  obtain ⟨c2, m2, hrun, hwf2, hb2, hm2, hmono, hprobe⟩ :=
    cbfIgcLoop_spec (cbf.probesOf x) cbf.counters cbf.num_entries (2 ^ 32 - 1) hn hvv
  refine ⟨{ cbf with counters := c2 }, m2, ?_, ⟨hwf2, hn, hk⟩,
    rfl, rfl, rfl, rfl, hm2, hmono, hprobe⟩
  unfold CountingBloomFilter.insert_get_count
  rw [hrun]

theorem probesOf_congr {α : Type} (cbf2 cbf : CountingBloomFilter α)
    (hk : cbf2.num_hashes = cbf.num_hashes)
    (h1 : cbf2.hash_builder_one = cbf.hash_builder_one)
    (h2 : cbf2.hash_builder_two = cbf.hash_builder_two) (x : α) :
    cbf2.probesOf x = cbf.probesOf x := by
  unfold CountingBloomFilter.probesOf
  rw [hk, h1, h2]

/- ### Traces of insert / insert_get_count calls -/

theorem runOps_spec {α : Type} [DecidableEq α] :
    ∀ (ts : List (α × Bool)) (cbf : CountingBloomFilter α), cbf.WF →
    ∀ (x : α), ∃ cbf2, cbf.runOps ts = some cbf2 ∧ cbf2.WF ∧
      cbf2.num_entries = cbf.num_entries ∧ cbf2.num_hashes = cbf.num_hashes ∧
      cbf2.hash_builder_one = cbf.hash_builder_one ∧
      cbf2.hash_builder_two = cbf.hash_builder_two ∧
      cbf2.counters.mask = cbf.counters.mask ∧
      (∀ idx, cbf.counters.get idx ≤ cbf2.counters.get idx) ∧
      (∀ h ∈ cbf.probesOf x,
        min (cbf.counters.get (h % cbf.num_entries) + countItem x ts)
            cbf.counters.mask
          ≤ cbf2.counters.get (h % cbf.num_entries)) := by
  intro ts
  induction ts with
  | nil =>
    intro cbf hwf x
    refine ⟨cbf, rfl, hwf, rfl, rfl, rfl, rfl, rfl, fun idx => Nat.le_refl _, ?_⟩
    intro h hmem
    have hle := ValueVec.get_le cbf.counters (h % cbf.num_entries)
      hwf.1.2.2.1 hwf.1.2.1
    simp only [countItem]
    omega
  | cons yb ts ih =>
    intro cbf hwf x
    obtain ⟨y, b⟩ := yb
    have hstep : ∃ cbf1, (match b with
        | true => (cbf.insert y).map (fun p => p.1)
        | false => (cbf.insert_get_count y).map (fun p => p.1)) = some cbf1 ∧
        cbf1.WF ∧
        cbf1.num_entries = cbf.num_entries ∧ cbf1.num_hashes = cbf.num_hashes ∧
        cbf1.hash_builder_one = cbf.hash_builder_one ∧
        cbf1.hash_builder_two = cbf.hash_builder_two ∧
        cbf1.counters.mask = cbf.counters.mask ∧
        (∀ idx, cbf.counters.get idx ≤ cbf1.counters.get idx) ∧
        (∀ h ∈ cbf.probesOf y,
          min (cbf.counters.get (h % cbf.num_entries) + 1) cbf.counters.mask
            ≤ cbf1.counters.get (h % cbf.num_entries)) := by
      cases b
      · obtain ⟨cbf1, m, hrun, hrest⟩ := cbfIgc_spec cbf y hwf
        exact ⟨cbf1, by rw [hrun]; rfl, hrest⟩
      · obtain ⟨cbf1, r, hrun, hrest⟩ := cbfInsert_spec cbf y hwf
        exact ⟨cbf1, by rw [hrun]; rfl, hrest⟩
    obtain ⟨cbf1, hrun1, hwf1, hne1, hnh1, hhb1, hhb2, hmask1, hmono1, hprobe1⟩ := hstep
    obtain ⟨cbf2, hrun2, hwf2, hne2, hnh2, hhc1, hhc2, hmask2, hmono2, hprobe2⟩ :=
      ih cbf1 hwf1 x
    have hprobes1 : cbf1.probesOf x = cbf.probesOf x :=
      probesOf_congr cbf1 cbf hnh1 hhb1 hhb2 x
    have hrun : cbf.runOps ((y, b) :: ts) = some cbf2 := by
      cases b
      · simp only [CountingBloomFilter.runOps]
        cases hq : cbf.insert_get_count y with
        | none => rw [hq] at hrun1; simp at hrun1
        | some p =>
          obtain ⟨cbf1b, r⟩ := p
          rw [hq] at hrun1
          simp at hrun1
          subst hrun1
          exact hrun2
      · simp only [CountingBloomFilter.runOps]
        cases hq : cbf.insert y with
        | none => rw [hq] at hrun1; simp at hrun1
        | some p =>
          obtain ⟨cbf1b, r⟩ := p
          rw [hq] at hrun1
          simp at hrun1
          subst hrun1
          exact hrun2
    refine ⟨cbf2, hrun, hwf2, hne2.trans hne1, hnh2.trans hnh1,
      hhc1.trans hhb1, hhc2.trans hhb2, hmask2.trans hmask1,
      fun idx => Nat.le_trans (hmono1 idx) (hmono2 idx), ?_⟩
    intro h hmem
    have hle1 := ValueVec.get_le cbf1.counters (h % cbf.num_entries)
      hwf1.1.2.2.1 hwf1.1.2.1
    by_cases hyx : y = x
    · subst hyx
      have hp1 := hprobe1 h hmem
      have hp2 := hprobe2 h (by rw [hprobes1]; exact hmem)
      rw [hne1, hmask1] at hp2
      simp [countItem]
      omega
    · have hm1 : cbf.counters.get (h % cbf.num_entries)
          ≤ cbf1.counters.get (h % cbf.num_entries) := hmono1 _
      have hp2 := hprobe2 h (by rw [hprobes1]; exact hmem)
      rw [hne1, hmask1] at hp2
      simp [countItem, hyx]
      omega

/- ### contains and estimate_count loops -/

theorem cbfContainsLoop_true : ∀ (hs : List Nat) (c : ValueVec) (n : Nat), 1 ≤ n →
    (∀ h ∈ hs, c.get (h % n) ≠ 0) → cbfContainsLoop c n hs = some true := by
  intro hs
  induction hs with
  | nil => intro c n hn hnz; rfl
  | cons h t ih =>
    intro c n hn hnz
    simp only [cbfContainsLoop, if_neg (show ¬n = 0 from by omega)]
    rw [if_neg (hnz h (List.mem_cons_self _ _))]
    exact ih c n hn (fun h2 hm => hnz h2 (List.mem_cons_of_mem _ hm))

theorem cbfEstLoop_spec : ∀ (hs : List Nat) (c : ValueVec) (n m : Nat), 1 ≤ n →
    ∃ r, cbfEstLoop c n m hs = some r ∧ r ≤ m ∧
      (∀ h ∈ hs, r ≤ c.get (h % n)) ∧
      (r = m ∨ ∃ h, h ∈ hs ∧ r = c.get (h % n)) := by
  intro hs
  induction hs with
  | nil =>
    intro c n m hn
    exact ⟨m, rfl, Nat.le_refl _, by simp, Or.inl rfl⟩
  | cons h t ih =>
    intro c n m hn
    simp only [cbfEstLoop, if_neg (show ¬n = 0 from by omega)]
    by_cases hc : c.get (h % n) < m
    · rw [if_pos hc]
      obtain ⟨r, hrun, hrle, hrall, hrwit⟩ := ih c n (c.get (h % n)) hn
      refine ⟨r, hrun, by omega, ?_, ?_⟩
      · intro h2 hm
        rcases List.mem_cons.1 hm with he | ht2
        · subst he; omega
        · exact hrall h2 ht2
      · rcases hrwit with he | ⟨h2, hm2, he2⟩
        · exact Or.inr ⟨h, List.mem_cons_self _ _, he⟩
        · exact Or.inr ⟨h2, List.mem_cons_of_mem _ hm2, he2⟩
    · rw [if_neg hc]
      obtain ⟨r, hrun, hrle, hrall, hrwit⟩ := ih c n m hn
      refine ⟨r, hrun, hrle, ?_, ?_⟩
      · intro h2 hm
        rcases List.mem_cons.1 hm with he | ht2
        · subst he; omega
        · exact hrall h2 ht2
      · rcases hrwit with he | ⟨h2, hm2, he2⟩
        · exact Or.inl he
        · exact Or.inr ⟨h2, List.mem_cons_of_mem _ hm2, he2⟩

theorem cbfContains_true {α : Type} (cbf : CountingBloomFilter α) (x : α)
    (hn : 1 ≤ cbf.num_entries)
    (hall : ∀ h ∈ cbf.probesOf x, cbf.counters.get (h % cbf.num_entries) ≠ 0) :
    cbf.contains x = some true :=
  cbfContainsLoop_true _ _ _ hn hall

theorem countItem_replicate {α : Type} [DecidableEq α] (x : α) (N : Nat) :
    countItem x (List.replicate N (x, true)) = N := by
  induction N with
  | zero => rfl
  | succ N ih =>
    simp only [List.replicate_succ, countItem, ih]
    simp
    omega

/- ### Bloom filter loops -/

theorem bfInsertLoop_spec : ∀ (hs : List Nat) (bits : List Bool) (cont : Bool),
    1 ≤ bits.length →
    ∃ bits2 cont2, bfInsertLoop bits cont hs = some (bits2, cont2) ∧
      bits2.length = bits.length ∧
      (∀ i, bits.getD i false = true → bits2.getD i false = true) ∧
      (∀ h ∈ hs, bits2.getD (h % bits.length) false = true) := by
  intro hs
  induction hs with
  | nil =>
    intro bits cont h1
    exact ⟨bits, cont, rfl, rfl, fun i h => h, by simp⟩
  | cons h t ih =>
    intro bits cont h1
    have hlen0 : ¬bits.length = 0 := by omega
    have hidx : h % bits.length < bits.length := Nat.mod_lt _ (by omega)
    simp only [bfInsertLoop, if_neg hlen0]
    rw [getElem?_eq_some_getD false hidx]
    obtain ⟨bits2, cont2, hrun, hlen2, hmono, hprobe⟩ :=
      ih (bits.set (h % bits.length) true) (cont && bits.getD (h % bits.length) false)
        (by rw [List.length_set]; omega)
    simp only [List.length_set] at hlen2 hprobe
    refine ⟨bits2, cont2, hrun, hlen2, ?_, ?_⟩
    · intro i hi
      apply hmono
      by_cases hq : i = h % bits.length
      · rw [hq, getD_set_self hidx]
      · rw [getD_set_ne (fun hh => hq hh.symm)]
        exact hi
    · intro h2 hm
      rcases List.mem_cons.1 hm with he | ht2
      · subst he
        apply hmono
        rw [getD_set_self hidx]
      · exact hprobe h2 ht2

theorem bfContainsLoop_true : ∀ (hs : List Nat) (bits : List Bool),
    1 ≤ bits.length →
    (∀ h ∈ hs, bits.getD (h % bits.length) false = true) →
    bfContainsLoop bits hs = some true := by
  intro hs
  induction hs with
  | nil => intro bits h1 hall; rfl
  | cons h t ih =>
    intro bits h1 hall
    have hlen0 : ¬bits.length = 0 := by omega
    have hidx : h % bits.length < bits.length := Nat.mod_lt _ (by omega)
    simp only [bfContainsLoop, if_neg hlen0]
    rw [getElem?_eq_some_getD false hidx, hall h (List.mem_cons_self _ _)]
    exact ih bits h1 (fun h2 hm => hall h2 (List.mem_cons_of_mem _ hm))

theorem bfInsert_spec {α : Type} (bf : BloomFilter α) (x : α)
    (hlen : 1 ≤ bf.bits.length) :
    ∃ bf2 r, bf.insert x = some (bf2, r) ∧
      bf2.bits.length = bf.bits.length ∧
      bf2.num_hashes = bf.num_hashes ∧
      bf2.hash_builder_one = bf.hash_builder_one ∧
      bf2.hash_builder_two = bf.hash_builder_two ∧
      (∀ i, bf.bits.getD i false = true → bf2.bits.getD i false = true) ∧
      (∀ h ∈ bf.probesOf x, bf2.bits.getD (h % bf.bits.length) false = true) := by
  obtain ⟨bits2, cont2, hrun, hlen2, hmono, hprobe⟩ :=
    bfInsertLoop_spec (bf.probesOf x) bf.bits true hlen
  refine ⟨{ bf with bits := bits2 }, !cont2, ?_, hlen2, rfl, rfl, rfl, hmono, hprobe⟩
  unfold BloomFilter.insert
  rw [hrun]

theorem bfProbesOf_congr {α : Type} (bf2 bf : BloomFilter α)
    (hk : bf2.num_hashes = bf.num_hashes)
    (h1 : bf2.hash_builder_one = bf.hash_builder_one)
    (h2 : bf2.hash_builder_two = bf.hash_builder_two) (x : α) :
    bf2.probesOf x = bf.probesOf x := by
  unfold BloomFilter.probesOf
  rw [hk, h1, h2]

theorem bfRunInserts_spec {α : Type} : ∀ (ts : List α) (bf : BloomFilter α),
    1 ≤ bf.bits.length →
    ∃ bf2, bf.runInserts ts = some bf2 ∧
      bf2.bits.length = bf.bits.length ∧
      bf2.num_hashes = bf.num_hashes ∧
      bf2.hash_builder_one = bf.hash_builder_one ∧
      bf2.hash_builder_two = bf.hash_builder_two ∧
      (∀ i, bf.bits.getD i false = true → bf2.bits.getD i false = true) := by
  intro ts
  induction ts with
  | nil => intro bf h1; exact ⟨bf, rfl, rfl, rfl, rfl, rfl, fun i h => h⟩
  | cons y ts ih =>
    intro bf h1
    obtain ⟨bf1, r, hrun1, hlen1, hk1, hb11, hb12, hmono1, _⟩ := bfInsert_spec bf y h1
    obtain ⟨bf2, hrun2, hlen2, hk2, hb21, hb22, hmono2⟩ := ih bf1 (by omega)
    refine ⟨bf2, ?_, hlen2.trans hlen1, hk2.trans hk1, hb21.trans hb11,
      hb22.trans hb12, fun i h => hmono2 i (hmono1 i h)⟩
    simp only [BloomFilter.runInserts]
    rw [hrun1]
    exact hrun2

theorem bfContains_true {α : Type} (bf : BloomFilter α) (x : α)
    (hlen : 1 ≤ bf.bits.length)
    (hall : ∀ h ∈ bf.probesOf x, bf.bits.getD (h % bf.bits.length) false = true) :
    bf.contains x = some true :=
  bfContainsLoop_true _ _ hlen hall

/-- Claim C5: soundness (no false negatives).  For a well-formed Bloom
filter (at least one bit, at least one hash) and a well-formed counting
filter, after `insert x` succeeds, `contains x` is `some true` and stays
`some true` after any further sequence of inserts (for the counting
filter: any further `insert`/`insert_get_count` calls — no `remove` or
`clear` occurs in the trace, matching the claim scope). -/
theorem filters_soundness {α : Type} [DecidableEq α] :
    (∀ (bf bf1 bf2 : BloomFilter α) (x : α) (r : Bool) (ts : List α),
      bf.WF → bf.insert x = some (bf1, r) → bf1.runInserts ts = some bf2 →
      bf2.contains x = some true) ∧
    (∀ (cbf cbf1 cbf2 : CountingBloomFilter α) (x : α) (r : Bool)
        (ts : List (α × Bool)),
      cbf.WF → cbf.insert x = some (cbf1, r) → cbf1.runOps ts = some cbf2 →
      cbf2.contains x = some true) := by
  constructor
  · intro bf bf1 bf2 x r ts hwf hins hrun
    obtain ⟨hwfl, hwfk⟩ := hwf
    obtain ⟨bf1b, rb, hins2, hlen1, hk1, hb11, hb12, hmono1, hprobe1⟩ :=
      bfInsert_spec bf x hwfl
    rw [hins] at hins2
    have hbf1 : bf1b = bf1 := (congrArg Prod.fst (Option.some.inj hins2)).symm
    subst hbf1
    obtain ⟨bf2b, hrun2, hlen2, hk2, hb21, hb22, hmono2⟩ :=
      bfRunInserts_spec ts bf1b (by omega)
    rw [hrun] at hrun2
    have hbf2 : bf2b = bf2 := (Option.some.inj hrun2).symm
    subst hbf2
    apply bfContains_true bf2b x (by omega)
    intro h hm
    have hp : bf2b.probesOf x = bf.probesOf x := by
      rw [bfProbesOf_congr bf2b bf1b hk2 hb21 hb22 x,
        bfProbesOf_congr bf1b bf hk1 hb11 hb12 x]
    rw [hp] at hm
    rw [show bf2b.bits.length = bf.bits.length from by omega]
    exact hmono2 _ (hprobe1 h hm)
  · intro cbf cbf1 cbf2 x r ts hwf hins hrun
    obtain ⟨cbf1b, rb, hins2, hwf1, hne1, hnh1, hcb1, hcb2, hmask1, hmono1, hprobe1⟩ :=
      cbfInsert_spec cbf x hwf
    rw [hins] at hins2
    have he1 : cbf1b = cbf1 := (congrArg Prod.fst (Option.some.inj hins2)).symm
    subst he1
    obtain ⟨cbf2b, hrun2, hwf2, hne2, hnh2, hcc1, hcc2, hmask2, hmono2, hprobe2⟩ :=
      runOps_spec ts cbf1b hwf1 x
    rw [hrun] at hrun2
    have he2 : cbf2b = cbf2 := (Option.some.inj hrun2).symm
    subst he2
    have hmaskpos : 1 ≤ cbf.counters.mask := by
      have hb := hwf.1.1
      have hm2 := hwf.1.2.2.1
      have hp2 : (2 : Nat) ^ 1 ≤ 2 ^ cbf.counters.bits_per_val :=
        Nat.pow_le_pow_right (by norm_num) hb
      omega
    have hnn : 1 ≤ cbf.num_entries := hwf.2.1
    apply cbfContains_true cbf2b x (by omega)
    intro h hm
    have hp : cbf2b.probesOf x = cbf.probesOf x := by
      rw [probesOf_congr cbf2b cbf1b hnh2 hcc1 hcc2 x,
        probesOf_congr cbf1b cbf hnh1 hcb1 hcb2 x]
    rw [hp] at hm
    have hprobeb := hprobe1 h hm
    have hrest := hprobe2 h
      (by rw [probesOf_congr cbf1b cbf hnh1 hcb1 hcb2 x]; exact hm)
    rw [hne1, hmask1] at hrest
    rw [show cbf2b.num_entries = cbf.num_entries from by omega]
    omega

/-- Witness for C5 on concrete one-bit and one-counter filters with a
constant hash builder: insert 7, insert 2 afterwards, and `contains 7`
is still `some true` in both filters. -/
theorem filters_soundness_witness :
    ((BloomFilter.with_size 1 1 hashZero hashZero : BloomFilter Nat).WF ∧
      (⟨[true], 1, hashZero, hashZero⟩ : BloomFilter Nat).contains 7 = some true) ∧
    ((CountingBloomFilter.with_size 1 1 1 hashZero hashZero :
        CountingBloomFilter Nat).WF ∧
      (⟨⟨1, 1, [2147483648]⟩, 1, 1, hashZero, hashZero⟩ :
        CountingBloomFilter Nat).contains 7 = some true) :=
  ⟨⟨by decide,
    filters_soundness.1 (BloomFilter.with_size 1 1 hashZero hashZero)
      ⟨[true], 1, hashZero, hashZero⟩ ⟨[true], 1, hashZero, hashZero⟩ 7 true [2]
      (by decide) rfl rfl⟩,
   ⟨by decide,
    filters_soundness.2 (CountingBloomFilter.with_size 1 1 1 hashZero hashZero)
      ⟨⟨1, 1, [2147483648]⟩, 1, 1, hashZero, hashZero⟩
      ⟨⟨1, 1, [2147483648]⟩, 1, 1, hashZero, hashZero⟩ 7 false [(2, true)]
      (by decide) rfl rfl⟩⟩

/-- Claim C6: saturation.  In any well-formed counting filter every
stored counter is at most `max_value()` (first two conjuncts, before and
after the run), and inserting the same item more than
`2^bits_per_entry - 1` times leaves every counter probed by that item
exactly at `max_value()` — the increment is skipped at `max_value()`, so
no counter ever wraps to 0. -/
theorem counting_saturation_invariant {α : Type} [DecidableEq α]
    (cbf : CountingBloomFilter α) (x : α) (N : Nat)
    (cbf2 : CountingBloomFilter α)
    (hwf : cbf.WF) (hN : cbf.counters.max_value < N)
    (hrun : cbf.runOps (List.replicate N (x, true)) = some cbf2) :
    (∀ i, cbf.counters.get i ≤ cbf.counters.max_value) ∧
    (∀ i, cbf2.counters.get i ≤ cbf2.counters.max_value) ∧
    ∀ h ∈ cbf.probesOf x,
      cbf2.counters.get (h % cbf.num_entries) = cbf.counters.max_value := by
  obtain ⟨cbf2b, hrun2, hwf2, hne, hnh, hb1, hb2, hmaskeq, hmono, hprobe⟩ :=
    runOps_spec (List.replicate N (x, true)) cbf hwf x
  rw [hrun] at hrun2
  have he : cbf2b = cbf2 := (Option.some.inj hrun2).symm
  subst he
  have hN2 : cbf.counters.mask < N := hN
  refine ⟨?_, ?_, ?_⟩
  · intro i
    exact ValueVec.get_le cbf.counters i hwf.1.2.2.1 hwf.1.2.1
  · intro i
    exact ValueVec.get_le cbf2b.counters i hwf2.1.2.2.1 hwf2.1.2.1
  · intro h hm
    have hp := hprobe h hm
    rw [countItem_replicate] at hp
    have hles := ValueVec.get_le cbf2b.counters (h % cbf.num_entries)
      hwf2.1.2.2.1 hwf2.1.2.1
    show cbf2b.counters.get (h % cbf.num_entries) = cbf.counters.mask
    omega

/-- Witness for C6: a 1-bit-per-entry counting filter saturates at
`max_value() = 1` after two inserts of the same item. -/
theorem counting_saturation_invariant_witness :
    (CountingBloomFilter.with_size 1 1 1 hashZero hashZero :
      CountingBloomFilter Nat).WF ∧
    (CountingBloomFilter.with_size 1 1 1 hashZero hashZero :
      CountingBloomFilter Nat).counters.max_value < 2 ∧
    ((∀ i, (CountingBloomFilter.with_size 1 1 1 hashZero hashZero :
        CountingBloomFilter Nat).counters.get i
        ≤ (CountingBloomFilter.with_size 1 1 1 hashZero hashZero :
            CountingBloomFilter Nat).counters.max_value) ∧
      (∀ i, (⟨⟨1, 1, [2147483648]⟩, 1, 1, hashZero, hashZero⟩ :
          CountingBloomFilter Nat).counters.get i
          ≤ (⟨⟨1, 1, [2147483648]⟩, 1, 1, hashZero, hashZero⟩ :
              CountingBloomFilter Nat).counters.max_value) ∧
      ∀ h ∈ (CountingBloomFilter.with_size 1 1 1 hashZero hashZero :
          CountingBloomFilter Nat).probesOf 7,
        (⟨⟨1, 1, [2147483648]⟩, 1, 1, hashZero, hashZero⟩ :
          CountingBloomFilter Nat).counters.get
            (h % (CountingBloomFilter.with_size 1 1 1 hashZero hashZero :
              CountingBloomFilter Nat).num_entries)
          = (CountingBloomFilter.with_size 1 1 1 hashZero hashZero :
              CountingBloomFilter Nat).counters.max_value) :=
  ⟨by decide, by decide,
    counting_saturation_invariant
      (CountingBloomFilter.with_size 1 1 1 hashZero hashZero) 7 2
      ⟨⟨1, 1, [2147483648]⟩, 1, 1, hashZero, hashZero⟩
      (by decide) (by decide) rfl⟩

/-- Claim C3, amended: after any sequence of `insert`/`insert_get_count`
calls (no `remove` or `clear`), `estimate_count x` returns the minimum
counter value across the probe positions of `x` (it is one of the
probed counter values and a lower bound of all of them), and whenever
the number of insertions of `x` in the trace is at most `max_value()`,
the estimate is at least that insertion count.  Without the cap the
claimed unconditional lower bound is false: saturation stops the
counters at `max_value()` (see the counterexample). -/
theorem estimate_count_min_upper_bound {α : Type} [DecidableEq α]
    (cbf cbf2 : CountingBloomFilter α) (x : α) (ts : List (α × Bool))
    (hwf : cbf.WF) (hrun : cbf.runOps ts = some cbf2) :
    ∃ m, cbf2.estimate_count x = some m ∧
      (∃ h, h ∈ cbf2.probesOf x ∧
        m = cbf2.counters.get (h % cbf2.num_entries)) ∧
      (∀ h ∈ cbf2.probesOf x, m ≤ cbf2.counters.get (h % cbf2.num_entries)) ∧
      (countItem x ts ≤ cbf.counters.max_value → countItem x ts ≤ m) := by
  obtain ⟨cbf2b, hrun2, hwf2, hne, hnh, hb1, hb2, hmaskeq, hmono, hprobe⟩ :=
    runOps_spec ts cbf hwf x
  rw [hrun] at hrun2
  have he : cbf2b = cbf2 := (Option.some.inj hrun2).symm
  subst he
  have hn2 : 1 ≤ cbf2b.num_entries := by
    have h2 := hwf.2.1
    omega
  obtain ⟨r, hrunE, hrle, hrall, hrwit⟩ :=
    cbfEstLoop_spec (cbf2b.probesOf x) cbf2b.counters cbf2b.num_entries
      (2 ^ 32 - 1) hn2
  have hprobeseq : cbf2b.probesOf x = cbf.probesOf x :=
    probesOf_congr cbf2b cbf hnh hb1 hb2 x
  have hlenp : (cbf2b.probesOf x).length = cbf2b.num_hashes := by
    show (hashProbes x cbf2b.num_hashes cbf2b.hash_builder_one
      cbf2b.hash_builder_two).length = cbf2b.num_hashes
    rw [hashProbes_eq]
    simp
  have hk2 : 1 ≤ cbf2b.num_hashes := by
    have h2 := hwf.2.2
    omega
  have e31 : (2 : Nat) ^ 31 = 2147483648 := by norm_num
  have e32 : (2 : Nat) ^ 32 - 1 = 4294967295 := by norm_num
  have hmb : cbf2b.counters.mask = 2 ^ cbf2b.counters.bits_per_val - 1 :=
    hwf2.1.2.2.1
  have hpw : 2 ^ cbf2b.counters.bits_per_val ≤ 2 ^ 31 :=
    Nat.pow_le_pow_right (by norm_num) hwf2.1.2.1
  refine ⟨r, hrunE, ?_, hrall, ?_⟩
  · rcases hrwit with he2 | hwit
    · exfalso
      rcases hl : cbf2b.probesOf x with _ | ⟨h0, hrest⟩
      · rw [hl] at hlenp
        simp at hlenp
        omega
      · have hm0 : h0 ∈ cbf2b.probesOf x := by
          rw [hl]
          exact List.mem_cons_self _ _
        have hr0 := hrall h0 hm0
        have hle0 := ValueVec.get_le cbf2b.counters (h0 % cbf2b.num_entries)
          hwf2.1.2.2.1 hwf2.1.2.1
        omega
    · exact hwit
  · intro hcnt
    have hcnt2 : countItem x ts ≤ cbf.counters.mask := hcnt
    rcases hrwit with he2 | ⟨h, hmemh, he2⟩
    · have hmaskb : cbf.counters.mask = 2 ^ cbf.counters.bits_per_val - 1 :=
        hwf.1.2.2.1
      have hpwb : 2 ^ cbf.counters.bits_per_val ≤ 2 ^ 31 :=
        Nat.pow_le_pow_right (by norm_num) hwf.1.2.1
      omega
    · have hmem2 : h ∈ cbf.probesOf x := by
        rw [← hprobeseq]
        exact hmemh
      have hp := hprobe h hmem2
      rw [hne] at he2
      omega

/-- Witness for the amended C3: one insert of 7 into a fresh 1-bit
counting filter; the estimate is one of the probed counters, bounds all
of them, and is at least the insertion count 1. -/
theorem estimate_count_min_upper_bound_witness :
    (CountingBloomFilter.with_size 1 1 1 hashZero hashZero :
      CountingBloomFilter Nat).WF ∧
    (CountingBloomFilter.with_size 1 1 1 hashZero hashZero :
      CountingBloomFilter Nat).runOps [(7, true)]
      = some ⟨⟨1, 1, [2147483648]⟩, 1, 1, hashZero, hashZero⟩ ∧
    ∃ m, (⟨⟨1, 1, [2147483648]⟩, 1, 1, hashZero, hashZero⟩ :
        CountingBloomFilter Nat).estimate_count 7 = some m ∧
      (∃ h, h ∈ (⟨⟨1, 1, [2147483648]⟩, 1, 1, hashZero, hashZero⟩ :
          CountingBloomFilter Nat).probesOf 7 ∧
        m = (⟨⟨1, 1, [2147483648]⟩, 1, 1, hashZero, hashZero⟩ :
          CountingBloomFilter Nat).counters.get
            (h % (⟨⟨1, 1, [2147483648]⟩, 1, 1, hashZero, hashZero⟩ :
              CountingBloomFilter Nat).num_entries)) ∧
      (∀ h ∈ (⟨⟨1, 1, [2147483648]⟩, 1, 1, hashZero, hashZero⟩ :
          CountingBloomFilter Nat).probesOf 7,
        m ≤ (⟨⟨1, 1, [2147483648]⟩, 1, 1, hashZero, hashZero⟩ :
          CountingBloomFilter Nat).counters.get
            (h % (⟨⟨1, 1, [2147483648]⟩, 1, 1, hashZero, hashZero⟩ :
              CountingBloomFilter Nat).num_entries)) ∧
      (countItem 7 [((7 : Nat), true)]
          ≤ (CountingBloomFilter.with_size 1 1 1 hashZero hashZero :
            CountingBloomFilter Nat).counters.max_value →
        countItem 7 [((7 : Nat), true)] ≤ m) :=
  ⟨by decide, rfl,
    estimate_count_min_upper_bound
      (CountingBloomFilter.with_size 1 1 1 hashZero hashZero)
      ⟨⟨1, 1, [2147483648]⟩, 1, 1, hashZero, hashZero⟩ 7 [(7, true)]
      (by decide) rfl⟩

/-- Counterexample to C3 as stated: in a 1-bit-per-entry counting
filter, inserting the same item twice saturates the probed counter at
1, and `estimate_count` then returns 1, strictly less than the true
insertion count 2 — so the unconditional claim that the estimate never
undercounts the insertion count is false on the code. -/
theorem estimate_count_undercount_cex :
    (CountingBloomFilter.runOps
        (CountingBloomFilter.with_size 1 1 1 hashZero hashZero)
        [((7 : Nat), true), (7, true)]).bind
      (fun s => s.estimate_count 7) = some 1 ∧
    countItem 7 [((7 : Nat), true), (7, true)] = 2 ∧ (1 : Nat) < 2 :=
  ⟨rfl, rfl, by norm_num⟩

/-- Claim C2, evaluated at the failing input.  Take
`CountingBloomFilter::with_size(1, 1, 2)` (one 1-bit counter, two
hashes: both probes of any item reduce to index 0) and a constant hash
builder; after one `insert(7)` the counter is 1 (the second probe hits
the saturation skip), `contains(7)` is `some true`, yet `remove(7)`
panics: its first probe decrements the counter to 0 and its second
probe reads 0, reaching the branch the code declares unreachable
(Contains returned true but a counter is 0).  `isSome = false` exhibits
the panic, refuting the claim that the panic branch is unreachable in
single-threaded execution. -/
theorem counting_remove_zero_counter_panic :
    ((CountingBloomFilter.with_size 1 1 2 hashZero hashZero :
        CountingBloomFilter Nat).insert 7).map
      (fun p => (p.1.contains 7, (p.1.remove 7).isSome))
      = some (some true, false) := rfl

/- ### Combining Bloom filters -/

theorem zipWith_getElem? (f : Bool → Bool → Bool) :
    ∀ (a b : List Bool) (i : Nat), i < a.length → i < b.length →
    (List.zipWith f a b)[i]? = some (f (a.getD i false) (b.getD i false)) := by
  intro a
  induction a with
  | nil => intro b i h1 h2; simp at h1
  | cons x xs ih =>
    intro b i h1 h2
    cases b with
    | nil => simp at h2
    | cons y ys =>
      cases i with
      | zero => simp [List.zipWith_cons_cons]
      | succ i =>
        simp only [List.zipWith_cons_cons, List.getElem?_cons_succ,
          List.getD_cons_succ]
        exact ih ys i (by simpa using h1) (by simpa using h2)

/-- Claim C7: `intersect` and `union` fault (contract violation, `none`)
exactly when the two bit-array lengths differ; with equal lengths they
replace the bits of `self` with the pointwise AND respectively OR of the
two arrays (the `other` argument is taken by reference and never
modified — the operations are functions of it), and the boolean result
is `true` exactly when the bit array of `self` changed. -/
theorem bloom_combine_contract {α : Type} (bf other : BloomFilter α) :
    (bf.bits.length ≠ other.bits.length →
      bf.intersect other = none ∧ bf.unionOp other = none) ∧
    (bf.bits.length = other.bits.length →
      ∃ bf1 r1 bf2 r2,
        bf.intersect other = some (bf1, r1) ∧
        bf.unionOp other = some (bf2, r2) ∧
        bf1.bits.length = bf.bits.length ∧ bf2.bits.length = bf.bits.length ∧
        (∀ i, i < bf.bits.length →
          bf1.bits[i]? = some (bf.bits.getD i false && other.bits.getD i false)) ∧
        (∀ i, i < bf.bits.length →
          bf2.bits[i]? = some (bf.bits.getD i false || other.bits.getD i false)) ∧
        (r1 = true ↔ bf1.bits ≠ bf.bits) ∧
        (r2 = true ↔ bf2.bits ≠ bf.bits)) := by
  constructor
  · intro hne
    constructor
    · simp [BloomFilter.intersect, bitvecCombine, hne]
    · simp [BloomFilter.unionOp, bitvecCombine, hne]
  · intro heq
    refine ⟨{ bf with bits := List.zipWith (fun a b => a && b) bf.bits other.bits },
      decide (List.zipWith (fun a b => a && b) bf.bits other.bits ≠ bf.bits),
      { bf with bits := List.zipWith (fun a b => a || b) bf.bits other.bits },
      decide (List.zipWith (fun a b => a || b) bf.bits other.bits ≠ bf.bits),
      ?_, ?_, ?_, ?_, ?_, ?_, ?_, ?_⟩
    · simp [BloomFilter.intersect, bitvecCombine, heq]
    · simp [BloomFilter.unionOp, bitvecCombine, heq]
    · show (List.zipWith (fun a b => a && b) bf.bits other.bits).length
          = bf.bits.length
      rw [List.length_zipWith, ← heq, Nat.min_self]
    · show (List.zipWith (fun a b => a || b) bf.bits other.bits).length
          = bf.bits.length
      rw [List.length_zipWith, ← heq, Nat.min_self]
    · intro i hi
      exact zipWith_getElem? (fun a b => a && b) bf.bits other.bits i hi (by omega)
    · intro i hi
      exact zipWith_getElem? (fun a b => a || b) bf.bits other.bits i hi (by omega)
    · simp
    · simp

/-- Witness for C7: a length-mismatched pair faults in both operations;
an equal-length pair combines pointwise. -/
theorem bloom_combine_contract_witness :
    ((⟨[true], 1, hashZero, hashZero⟩ : BloomFilter Nat).intersect
        ⟨[true, false], 1, hashZero, hashZero⟩ = none ∧
      (⟨[true], 1, hashZero, hashZero⟩ : BloomFilter Nat).unionOp
        ⟨[true, false], 1, hashZero, hashZero⟩ = none) ∧
    ∃ bf1 r1 bf2 r2,
      (⟨[true, false], 1, hashZero, hashZero⟩ : BloomFilter Nat).intersect
        ⟨[true, true], 1, hashZero, hashZero⟩ = some (bf1, r1) ∧
      (⟨[true, false], 1, hashZero, hashZero⟩ : BloomFilter Nat).unionOp
        ⟨[true, true], 1, hashZero, hashZero⟩ = some (bf2, r2) ∧
      bf1.bits.length
        = (⟨[true, false], 1, hashZero, hashZero⟩ : BloomFilter Nat).bits.length ∧
      bf2.bits.length
        = (⟨[true, false], 1, hashZero, hashZero⟩ : BloomFilter Nat).bits.length ∧
      (∀ i, i < (⟨[true, false], 1, hashZero, hashZero⟩ :
          BloomFilter Nat).bits.length →
        bf1.bits[i]? = some ((⟨[true, false], 1, hashZero, hashZero⟩ :
            BloomFilter Nat).bits.getD i false &&
          (⟨[true, true], 1, hashZero, hashZero⟩ :
            BloomFilter Nat).bits.getD i false)) ∧
      (∀ i, i < (⟨[true, false], 1, hashZero, hashZero⟩ :
          BloomFilter Nat).bits.length →
        bf2.bits[i]? = some ((⟨[true, false], 1, hashZero, hashZero⟩ :
            BloomFilter Nat).bits.getD i false ||
          (⟨[true, true], 1, hashZero, hashZero⟩ :
            BloomFilter Nat).bits.getD i false)) ∧
      (r1 = true ↔ bf1.bits
        ≠ (⟨[true, false], 1, hashZero, hashZero⟩ : BloomFilter Nat).bits) ∧
      (r2 = true ↔ bf2.bits
        ≠ (⟨[true, false], 1, hashZero, hashZero⟩ : BloomFilter Nat).bits) :=
  ⟨(bloom_combine_contract (⟨[true], 1, hashZero, hashZero⟩ : BloomFilter Nat)
      ⟨[true, false], 1, hashZero, hashZero⟩).1 (by decide),
    (bloom_combine_contract
      (⟨[true, false], 1, hashZero, hashZero⟩ : BloomFilter Nat)
      ⟨[true, true], 1, hashZero, hashZero⟩).2 rfl⟩

theorem rat_floor_eq_int_floor (q : ℚ) : q.floor = ⌊q⌋ := rfl

theorem rat_floor_zero_add_half : ((0 : ℚ) + 1 / 2).floor = 0 := by
  rw [rat_floor_eq_int_floor, show ((0 : ℚ) + 1 / 2) = 1 / 2 from by norm_num]
  exact Int.floor_eq_zero_iff.2 ⟨by norm_num, by norm_num⟩

/-- The sizing formula at an expected-item count of 0, for every
rounding model and every model of the libm logarithm: `0 as f32` is the
exact zero, the IEEE product of a zero with any finite value is a
signed zero and with an infinity or NaN it is NaN, `round` preserves
these, and the saturating cast sends all of them to 0.  So
`needed_bits` returns 0 bits no matter what `f32::ln` or the rounding
of the intermediate quotients produce. -/
theorem needed_bits_zero_items (rnd : Bool → ℚ → F32) (lnOf : F32 → F32)
    (rate : F32) : needed_bits rnd lnOf rate 0 = 0 := by
  unfold needed_bits natToF32
  rw [if_pos rfl]
  generalize F32.div rnd (lnOf (F32.div rnd F32.one rate))
    (F32.mul rnd F32.LN2 F32.LN2) = y
  cases y with
  | nan => rfl
  | inf s => rfl
  | finite t m =>
    show F32.toUnsigned (2 ^ 64 - 1)
      (F32.round (F32.mul rnd (F32.finite false 0) (F32.finite t m))) = 0
    simp only [F32.mul]
    rw [if_pos (Or.inl trivial)]
    simp only [F32.round, F32.toUnsigned]
    rw [rat_floor_zero_add_half]
    cases t
    · show min (2 ^ 64 - 1) ((0 : ℤ) : ℚ).floor.toNat = 0
      rw [rat_floor_eq_int_floor, Int.floor_intCast]
      rfl
    · rfl

/-- `optimal_num_hashes 0 0` for every rounding model: `0f32 / 0f32` is
NaN by IEEE, NaN propagates through the product with LN_2 and through
`round`, the saturating u32 cast yields 0, and the clamp
`min(max(0, 2), 200)` gives 2. -/
theorem optimal_num_hashes_zero (rnd : Bool → ℚ → F32) :
    optimal_num_hashes rnd 0 0 = 2 := rfl

/-- Counterexample to C8 as stated, evaluated at a concrete
instantiation of the abstracted rounding and logarithm (exact rational
rounding, ln standing value 23/5, rate 1/100): `with_rate` with an
expected-item count of 0 builds a filter with 0 bits and 2 hashes
without faulting, but the very next `insert`/`contains` call faults:
the index reduction `h % bits.len()` is a Rust remainder-by-zero panic,
modelled `none` — refuting the claim that the calls complete without
faulting. -/
theorem with_rate_zero_items_insert_faults_cex :
    (BloomFilter.with_rate (fun s q => F32.finite s q)
        (fun _ => F32.finite false (23 / 5)) (F32.finite false (1 / 100)) 0
        hashZero hashZero : BloomFilter Nat).insert 3 = none ∧
    (BloomFilter.with_rate (fun s q => F32.finite s q)
        (fun _ => F32.finite false (23 / 5)) (F32.finite false (1 / 100)) 0
        hashZero hashZero : BloomFilter Nat).contains 3 = none := by
  have hw : (BloomFilter.with_rate (fun s q => F32.finite s q)
      (fun _ => F32.finite false (23 / 5)) (F32.finite false (1 / 100)) 0
      hashZero hashZero : BloomFilter Nat)
      = BloomFilter.with_size 0 2 hashZero hashZero := by
    show BloomFilter.with_size
      (needed_bits (fun s q => F32.finite s q)
        (fun _ => F32.finite false (23 / 5)) (F32.finite false (1 / 100)) 0)
      (optimal_num_hashes (fun s q => F32.finite s q)
        (needed_bits (fun s q => F32.finite s q)
          (fun _ => F32.finite false (23 / 5)) (F32.finite false (1 / 100)) 0) 0)
      hashZero hashZero
      = BloomFilter.with_size 0 2 hashZero hashZero
    rw [needed_bits_zero_items (fun s q => F32.finite s q)
        (fun _ => F32.finite false (23 / 5)) (F32.finite false (1 / 100)),
      optimal_num_hashes_zero (fun s q => F32.finite s q)]
  rw [hw]
  exact ⟨rfl, rfl⟩

/-- Claim C8, amended: constructing via `with_rate` with an
expected-item count of 0 succeeds — the construction is total and, for
every model of the binary32 rounding and of the platform `f32::ln`
(both left opaque, so the result covers the real ones), yields a filter
with 0 bits and 2 hashes — but the subsequent `insert` and `contains`
calls on the resulting filter do not complete: they fault with a
remainder-by-zero panic when reducing the first probe by the zero bit
count.  (A rate outside (0,1) collapses the sizing the same way; the
count-0 case already refutes the claim.) -/
theorem with_rate_zero_items_amended {α : Type} (rnd : Bool → ℚ → F32)
    (lnOf : F32 → F32) (rate : F32) (b1 b2 : α → Nat) (x : α) :
    (BloomFilter.with_rate rnd lnOf rate 0 b1 b2).num_bits = 0 ∧
    (BloomFilter.with_rate rnd lnOf rate 0 b1 b2).num_hashes = 2 ∧
    (BloomFilter.with_rate rnd lnOf rate 0 b1 b2).insert x = none ∧
    (BloomFilter.with_rate rnd lnOf rate 0 b1 b2).contains x = none := by
  have hw : BloomFilter.with_rate rnd lnOf rate 0 b1 b2
      = BloomFilter.with_size 0 2 b1 b2 := by
    show BloomFilter.with_size (needed_bits rnd lnOf rate 0)
      (optimal_num_hashes rnd (needed_bits rnd lnOf rate 0) 0) b1 b2
      = BloomFilter.with_size 0 2 b1 b2
    rw [needed_bits_zero_items rnd lnOf rate, optimal_num_hashes_zero rnd]
  rw [hw]
  exact ⟨rfl, rfl, rfl, rfl⟩
